import Mathlib

/-!
Shallow embedding of the standby shift scheduler, translated from the two
source files `Standby.py` and `generator.py`.

Modelling conventions:
* Dates are absolute day numbers (`Int`) with day 0 falling on a Monday, so
  Python's `date.weekday()` becomes `d.emod 7` and date plus or minus
  `timedelta(days=1)` becomes `d + 1` or `d - 1`.  In the concrete scenarios below day 0 stands for
  2024-01-01 (a Monday).
* Python's `random.shuffle` and `random.choice` are modelled by an oracle
  (`Rnd`): a stream of permutation functions and choice functions indexed by
  the number of random calls made so far, constrained only by `PermOK` and
  `PickOK`.  Universally quantified theorems therefore hold for every possible
  outcome of the randomness.
* A Python dict (insertion ordered) is an association list; per-person record
  dictionaries become a function `Name -> record` (Python raises `KeyError`
  outside the roster; theorems that depend on the record of a person restrict
  to roster members).
* Python code that can raise (`pop` from an empty list) returns `Option`.
-/

abbrev Name := String

/-- Oracle for the program's randomness: `perm k` models the result of the
`k`-th call to `random.shuffle` and `pick k` the result of the `k`-th call to
`random.choice`. -/
structure Rnd where
  perm : {α : Type} → Nat → List α → List α
  pick : Nat → List Name → Name

/-- Every shuffle outcome is a permutation of its input. -/
def PermOK (r : Rnd) : Prop := ∀ {α : Type} (k : Nat) (l : List α), (r.perm k l).Perm l

/-- Every choice outcome is an element of its (nonempty) input. -/
def PickOK (r : Rnd) : Prop := ∀ k l, l ≠ [] → r.pick k l ∈ l

/-- Inclusive date range, as built in both variants by
`[start_date + timedelta(days=i) for i in range((end_date - start_date).days + 1)]`;
`List.range` of `Int.toNat` reproduces Python `range` on a negative argument. -/
def datesList (s e : Int) : List Int :=
  (List.range (e - s + 1).toNat).map (fun (i : Nat) => s + (i : Int))

/-- Translation of `date.weekday() >= 5 or date in self.holidays`
(day 0 is a Monday, so `weekday` is `emod 7`). -/
def specialDay (holidays : List Int) (d : Int) : Bool :=
  decide (5 ≤ d.emod 7) || holidays.contains d

/-- Stable insertion sort key comparison: strict lexicographic order on the
`(total, special_days)` key, as used by
`available_names.sort(key=lambda x: (total, special_days))`. -/
def keyLt (key : Name → Int × Int) (a b : Name) : Bool :=
  decide ((key a).1 < (key b).1 ∨ ((key a).1 = (key b).1 ∧ (key a).2 < (key b).2))

/-- Insert `x` after every element strictly below it, keeping ties in their
original relative order (Python's `list.sort` is stable). -/
def insertKey (key : Name → Int × Int) (x : Name) : List Name → List Name
  | [] => [x]
  | y :: ys => if keyLt key y x then y :: insertKey key x ys else x :: y :: ys

/-- Stable insertion sort by a `(total, special_days)` key, modelling
`list.sort(key=...)`. -/
def sortByKey (key : Name → Int × Int) : List Name → List Name
  | [] => []
  | x :: xs => insertKey key x (sortByKey key xs)

/-- Ascending insertion sort on dates, modelling `sorted(self.schedule.keys())`. -/
def insertInt (x : Int) : List Int → List Int
  | [] => [x]
  | y :: ys => if x ≤ y then x :: y :: ys else y :: insertInt x ys

/-- Sort a list of dates ascending, modelling `sorted(...)`. -/
def sortInts : List Int → List Int
  | [] => []
  | x :: xs => insertInt x (sortInts xs)

namespace Generator

/-- Per-person statistics record of `generator.py`:
`{'total': 0, 'special_days': 0, 'dates': [], 'last_assigned': None, 'weeks': {}}`.
The `weeks` dict (week index -> count, missing key read as 0 via `.get(w, 0)`)
is a total function. -/
structure PStats where
  total : Int
  special_days : Int
  dates : List Int
  last_assigned : Option Int
  weeks : Int → Int

/-- Fresh record, as built for every name in `__init__`. -/
def blankStats : PStats := ⟨0, 0, [], none, fun _ => 0⟩

/-- The scheduler state of `generator.py`: the constructor fields.  The derived
fields `special_days` and `total_shifts`, stored by `__init__` in Python, are
pure functions of these fields and are embedded as functions below. -/
structure State where
  start_date : Int
  end_date : Int
  names : List Name
  holidays : List Int
  schedule : List (Int × List Name)
  assignments : Name → PStats

/-- Error taxonomy named by the specification for constructor validation. -/
inductive SchedError where
  | invalidRange
  | insufficientRoster

/-- State built by `ShiftScheduler.__init__`: empty schedule, blank records. -/
def initState (s e : Int) (names : List Name) (holidays : List Int) : State :=
  { start_date := s, end_date := e, names := names, holidays := holidays,
    schedule := [], assignments := fun _ => blankStats }

/-- Constructor behaviour: the source `__init__` contains no validation and no
`raise`, so construction always returns the stored state; the `Except` result
type records that neither `SchedError` is ever produced. -/
def init (s e : Int) (names : List Name) (holidays : List Int) :
    Except SchedError State :=
  Except.ok (initState s e names holidays)

/-- Translation of `is_special_day`. -/
def is_special_day (st : State) (d : Int) : Bool := specialDay st.holidays d

/-- Translation of `calculate_special_days` (the `while` loop over the range). -/
def calculate_special_days (st : State) : List Int :=
  (datesList st.start_date st.end_date).filter (fun d => is_special_day st d)

/-- Translation of `self.total_shifts = ((end_date - start_date).days + 1) * 2`. -/
def total_shifts (st : State) : Int := (st.end_date - st.start_date + 1) * 2

/-- Translation of `get_week_number`: Python `//` is floor division. -/
def get_week_number (st : State) (d : Int) : Int := (d - st.start_date).fdiv 7

/-- Translation of `is_available`: weekly count below the cap of 2. -/
def is_available (st : State) (n : Name) (d : Int) : Bool :=
  decide ((st.assignments n).weeks (get_week_number st d) < 2)

/-- Membership of a name in the schedule entry of a day, if any
(`day in self.schedule and name in self.schedule[day]`). -/
def onDay (sched : List (Int × List Name)) (n : Name) (d : Int) : Bool :=
  match List.lookup d sched with
  | some l => l.contains n
  | none => false

/-- Translation of `is_consecutive`. -/
def is_consecutive (st : State) (n : Name) (d : Int) : Bool :=
  onDay st.schedule n (d - 1) || onDay st.schedule n (d + 1)

/-- The first candidate list of `generate_schedule` (line 81): roster members
passing both the adjacency and the availability predicate. -/
def strictPool (st : State) (d : Int) : List Name :=
  st.names.filter (fun n => !(is_consecutive st n d) && is_available st n d)

/-- The relaxed candidate list (line 84): availability dropped, adjacency kept. -/
def relaxedPool (st : State) (d : Int) : List Name :=
  st.names.filter (fun n => !(is_consecutive st n d))

/-- One `available_names.pop(0)` of the inner loop: if the list is empty it is
first refilled with `[n for n in self.names if n not in shift]` and shuffled;
popping from a still-empty list is Python's `IndexError`, hence `none`. -/
def popNext (r : Rnd) (k : Nat) (names shift avail : List Name) :
    Option (Name × List Name × Nat) :=
  match avail with
  | [] =>
    match r.perm k (names.filter (fun n => !(shift.contains n))) with
    | [] => none
    | x :: rest => some (x, rest, k + 1)
  | x :: rest => some (x, rest, k)

/-- Increment of `self.assignments[name]['weeks'][w]` (missing key read as 0). -/
def bumpWeek (st : State) (n : Name) (w : Int) : State :=
  { st with assignments := fun m =>
      if m = n then
        let p := st.assignments n
        { p with weeks := fun v => if v = w then p.weeks v + 1 else p.weeks v }
      else st.assignments m }

/-- One day of the initial assignment loop of `generate_schedule` (lines 80-100):
build the candidate pool (relaxing availability when fewer than 2 remain),
shuffle it, pop two names (refilling from the roster minus the day's shift when
exhausted), bump their week counters and append the day's entry. -/
def assignDay (r : Rnd) (st : State) (k : Nat) (d : Int) : Option (State × Nat) :=
  let pool := if (strictPool st d).length < 2 then relaxedPool st d else strictPool st d
  let avail := r.perm k pool
  match popNext r (k + 1) st.names [] avail with
  | none => none
  | some (n1, avail1, k1) =>
    let st1 := bumpWeek st n1 (get_week_number st d)
    match popNext r k1 st.names [n1] avail1 with
    | none => none
    | some (n2, _, k2) =>
      let st2 := bumpWeek st1 n2 (get_week_number st d)
      some ({ st2 with schedule := st2.schedule ++ [(d, [n1, n2])] }, k2)

/-- The loop `for current_date in dates` of `generate_schedule`. -/
def assignLoop (r : Rnd) : State → Nat → List Int → Option (State × Nat)
  | st, k, [] => some (st, k)
  | st, k, d :: ds =>
    match assignDay r st k d with
    | none => none
    | some (st1, k1) => assignLoop r st1 k1 ds

/-- Body of the `for name in assignees` loop of `update_assignments`: bump
total, append the date, bump special-day count, update `last_assigned` to the
later date, bump the week counter. -/
def noteAssign (st : State) (d : Int) (n : Name) : State :=
  { st with assignments := fun m =>
      if m = n then
        let p := st.assignments n
        { total := p.total + 1
          special_days := p.special_days + (if is_special_day st d then 1 else 0)
          dates := p.dates ++ [d]
          last_assigned :=
            match p.last_assigned with
            | none => some d
            | some x => if x < d then some d else some x
          weeks := fun v =>
            if v = get_week_number st d then p.weeks v + 1 else p.weeks v }
      else st.assignments m }

/-- First loop of `update_assignments`: reset the record of every roster member. -/
def resetStats (st : State) : State :=
  { st with assignments := fun n =>
      if st.names.contains n then blankStats else st.assignments n }

/-- Translation of `update_assignments`: reset all records, then rebuild them by
one scan of the schedule in insertion order. -/
def update_assignments (st : State) : State :=
  st.schedule.foldl (fun acc pr => pr.2.foldl (fun a n => noteAssign a pr.1 n) acc)
    (resetStats st)

/-- Maximum of a list of integers, as Python `max(...)` over a nonempty list
(the `[]` case is Python's `ValueError` and is never reached under the
theorems' hypotheses). -/
def listMaxI : List Int → Int
  | [] => 0
  | x :: xs => xs.foldl max x

/-- Minimum of a list of integers, as Python `min(...)`. -/
def listMinI : List Int → Int
  | [] => 0
  | x :: xs => xs.foldl min x

/-- The `total` of every roster member, in roster (= dict insertion) order. -/
def totalsList (st : State) : List Int :=
  st.names.map (fun n => (st.assignments n).total)

/-- The `special_days` of every roster member. -/
def specialsList (st : State) : List Int :=
  st.names.map (fun n => (st.assignments n).special_days)

/-- Stop condition of `equalize_shifts`:
`max_total - min_total <= 1 and max_special - min_special <= 1`. -/
def spreadOK (st : State) : Bool :=
  decide (listMaxI (totalsList st) - listMinI (totalsList st) ≤ 1) &&
    decide (listMaxI (specialsList st) - listMinI (specialsList st) ≤ 1)

/-- Per-person target of `equalize_shifts`:
`base_shifts + (1 if i < extra_shifts else 0)` where `i` is the roster index.
The fields it reads (`total_shifts`, `names`) never change during the loop, so
recomputing it coincides with Python's precomputed dict. -/
def target_shifts (st : State) (n : Name) : Int :=
  (total_shifts st).fdiv st.names.length +
    (if (st.names.indexOf n : Int) < (total_shifts st).fmod st.names.length then 1
     else 0)

/-- Translation of `target_special_days = len(special_days) * 2 // len(names)`. -/
def target_special_days (st : State) : Int :=
  Int.ofNat ((calculate_special_days st).length * 2 / st.names.length)

/-- Swap trigger of `equalize_shifts` (lines 133-134). -/
def overLoaded (st : State) (isSpec : Bool) (n : Name) : Bool :=
  decide (target_shifts st n < (st.assignments n).total) ||
    (isSpec && decide (target_special_days st < (st.assignments n).special_days))

/-- Under-target condition of the replacement candidates (lines 140-141). -/
def underTarget (st : State) (isSpec : Bool) (n : Name) : Bool :=
  decide ((st.assignments n).total < target_shifts st n) ||
    (isSpec && decide ((st.assignments n).special_days < target_special_days st))

/-- Replacement candidate set of `equalize_shifts` (lines 136-141). -/
def candidatesFor (st : State) (d : Int) (isSpec : Bool) (pair : List Name) :
    List Name :=
  st.names.filter (fun n =>
    !(pair.contains n) && !(is_consecutive st n d) && is_available st n d &&
      underTarget st isSpec n)

/-- In-place update `self.schedule[date][i] = replacement` of the day's entry. -/
def setSlot (sched : List (Int × List Name)) (d : Int) (pair : List Name) :
    List (Int × List Name) :=
  sched.map (fun pr => if pr.1 = d then (pr.1, pair) else pr)

/-- Outgoing side of a swap (lines 146-147, 151, 156): decrement totals, remove
the date (first occurrence, as `list.remove`), decrement the week counter. -/
def decStats (st : State) (d : Int) (isSpec : Bool) (outN : Name) : State :=
  let w := get_week_number st d
  { st with assignments := fun m =>
      if m = outN then
        let p := st.assignments outN
        { p with
          total := p.total - 1
          special_days := p.special_days - (if isSpec then 1 else 0)
          dates := p.dates.erase d
          weeks := fun v => if v = w then p.weeks v - 1 else p.weeks v }
      else st.assignments m }

/-- Incoming side of a swap (lines 148-149, 152, 157). -/
def incStats (st : State) (d : Int) (isSpec : Bool) (inN : Name) : State :=
  let w := get_week_number st d
  { st with assignments := fun m =>
      if m = inN then
        let p := st.assignments inN
        { p with
          total := p.total + 1
          special_days := p.special_days + (if isSpec then 1 else 0)
          dates := p.dates ++ [d]
          weeks := fun v => if v = w then p.weeks v + 1 else p.weeks v }
      else st.assignments m }

/-- One index `i` of the `for i, name in enumerate(current_assignees)` loop of
`equalize_shifts`: if the current assignee is over target, pick a random
replacement from the candidate set (if any), write it into the schedule slot
and update both statistics records. -/
def rebalanceSlot (r : Rnd) (st : State) (k : Nat) (d : Int) (i : Nat) :
    State × Nat :=
  let pair := (List.lookup d st.schedule).getD []
  let isSpec := is_special_day st d
  let n := pair.getD i ""
  if overLoaded st isSpec n then
    match candidatesFor st d isSpec pair with
    | [] => (st, k)
    | c :: cs =>
      let repl := r.pick k (c :: cs)
      let st1 := { st with schedule := setSlot st.schedule d (pair.set i repl) }
      (incStats (decStats st1 d isSpec n) d isSpec repl, k + 1)
  else (st, k)

/-- Both slots of one day; the second slot reads the state already mutated by
the first (Python iterates over the aliased in-place list). -/
def rebalanceDay (r : Rnd) (st : State) (k : Nat) (d : Int) : State × Nat :=
  let p1 := rebalanceSlot r st k d 0
  rebalanceSlot r p1.1 p1.2 d 1

/-- One full pass `for date in sorted(self.schedule.keys())`. -/
def rebalancePass (r : Rnd) : State → Nat → List Int → State × Nat
  | st, k, [] => (st, k)
  | st, k, d :: ds =>
    let p := rebalanceDay r st k d
    rebalancePass r p.1 p.2 ds

/-- Sorted keys of the schedule. -/
def sortedDays (st : State) : List Int := sortInts (st.schedule.map Prod.fst)

/-- The `while iterations < max_iterations` loop of `equalize_shifts`; `fuel`
is the number of remaining allowed passes, the second component of the result
is the number of passes performed. -/
def equalizeLoop (r : Rnd) : Nat → State → Nat → Nat → State × Nat × Nat
  | 0, st, k, iters => (st, iters, k)
  | fuel + 1, st, k, iters =>
    if spreadOK st then (st, iters, k)
    else
      let p := rebalancePass r st k (sortedDays st)
      equalizeLoop r fuel p.1 p.2 (iters + 1)

/-- Translation of `equalize_shifts`: the bounded rebalancing loop followed by
the final `update_assignments` consistency rescan. -/
def equalize_shifts (r : Rnd) (st : State) (k maxIter : Nat) : State × Nat × Nat :=
  let t := equalizeLoop r maxIter st k 0
  (update_assignments t.1, t.2.1, t.2.2)

/-- The initial-assignment phase of `generate_schedule` (the day loop followed
by the first `update_assignments` call, lines 80-103). -/
def initialPhase (r : Rnd) (st : State) : Option (State × Nat) :=
  match assignLoop r st 0 (datesList st.start_date st.end_date) with
  | none => none
  | some (st1, k1) => some (update_assignments st1, k1)

/-- Translation of `generate_schedule`: initial assignment, statistics
recompute, then rebalancing with the default `max_iterations=2000`; the middle
component of the result is the number of rebalancing passes performed. -/
def generate_schedule (r : Rnd) (st : State) : Option (State × Nat × Nat) :=
  match initialPhase r st with
  | none => none
  | some (st1, k1) =>
    let t := equalize_shifts r st1 k1 2000
    some (t.1, t.2.1, t.2.2)

end Generator

namespace Standby

/-- Per-person record of `Standby.py` (no weekly counts in this variant). -/
structure PStats where
  total : Int
  special_days : Int
  dates : List Int
  last_assigned : Option Int

/-- The scheduler state of `Standby.py`. -/
structure State where
  start_date : Int
  end_date : Int
  names : List Name
  holidays : List Int
  schedule : List (Int × List Name)
  assignments : Name → PStats

/-- State built by `ShiftScheduler.__init__` of `Standby.py`. -/
def initState (s e : Int) (names : List Name) (holidays : List Int) : State :=
  { start_date := s, end_date := e, names := names, holidays := holidays,
    schedule := [], assignments := fun _ => ⟨0, 0, [], none⟩ }

/-- Translation of `is_special_day`. -/
def is_special_day (st : State) (d : Int) : Bool := specialDay st.holidays d

/-- The sort key `lambda x: (assignments[x]['total'], assignments[x]['special_days'])`. -/
def statKey (st : State) (n : Name) : Int × Int :=
  ((st.assignments n).total, (st.assignments n).special_days)

/-- Statistics update run for each assignment (lines 77-82): bump total, append
the date, set `last_assigned` to the current date unconditionally, bump the
special-day count when applicable. -/
def noteAssign (st : State) (d : Int) (n : Name) : State :=
  { st with assignments := fun m =>
      if m = n then
        let p := st.assignments n
        { total := p.total + 1
          special_days := p.special_days + (if is_special_day st d then 1 else 0)
          dates := p.dates ++ [d]
          last_assigned := some d }
      else st.assignments m }

/-- One iteration of the inner `for _ in range(2)` loop (lines 67-75): refill
the pool with a shuffled copy of the full roster if it is empty, sort it by the
current `(total, special_days)` key, pop the head. -/
def pickNext (r : Rnd) (st : State) (k : Nat) (avail : List Name) :
    Option (Name × List Name × Nat) :=
  let refreshed := if avail.isEmpty then (r.perm k st.names, k + 1) else (avail, k)
  match sortByKey (statKey st) refreshed.1 with
  | [] => none
  | x :: rest => some (x, rest, refreshed.2)

/-- One day of `generate_schedule` of `Standby.py` (lines 62-84). -/
def assignDay (r : Rnd) (st : State) (k : Nat) (d : Int) : Option (State × Nat) :=
  let avail := r.perm k st.names
  match pickNext r st (k + 1) avail with
  | none => none
  | some (n1, avail1, k1) =>
    let st1 := noteAssign st d n1
    match pickNext r st1 k1 avail1 with
    | none => none
    | some (n2, _, k2) =>
      let st2 := noteAssign st1 d n2
      some ({ st2 with schedule := st2.schedule ++ [(d, [n1, n2])] }, k2)

/-- The day loop of `generate_schedule`. -/
def assignLoop (r : Rnd) : State → Nat → List Int → Option (State × Nat)
  | st, k, [] => some (st, k)
  | st, k, d :: ds =>
    match assignDay r st k d with
    | none => none
    | some (st1, k1) => assignLoop r st1 k1 ds

/-- Translation of `generate_schedule` of `Standby.py`: the date list is
shuffled (`random.shuffle(dates)`, randomness index 0) before the day loop. -/
def generate_schedule (r : Rnd) (st : State) : Option (State × Nat) :=
  assignLoop r st 1 (r.perm 0 (datesList st.start_date st.end_date))

end Standby

/-- Deterministic oracle: every shuffle is the identity, every choice takes the
head. -/
def idRnd : Rnd := { perm := fun _ l => l, pick := fun _ l => l.headD "" }

/-- Oracle whose choices take the last element of the candidate list. -/
def lastRnd : Rnd := { perm := fun _ l => l, pick := fun _ l => l.getLastD "" }

/-- Oracle used for the C7 counterexample trace: shuffle number 2 rotates the
pool by two positions, all other shuffles are the identity. -/
def rotC7 : Rnd :=
  { perm := fun k l => l.rotate (if k = 2 then 2 else 0),
    pick := fun _ l => l.headD "" }

/-- Oracle used for the C8 counterexample trace: the date shuffle (number 0)
rotates by one position, all other shuffles are the identity. -/
def rotC8 : Rnd :=
  { perm := fun k l => l.rotate (if k = 0 then 1 else 0),
    pick := fun _ l => l.headD "" }

/-- Roster of seven distinct people for the example scenario. -/
def names7 : List Name := ["A", "B", "C", "D", "E", "F", "G"]

/-- Hand-written schedule over days 0-4 (day 3 a holiday) used to exhibit a
rebalancer swap whose candidate set has a unique least-loaded member. -/
def c3Base : Generator.State :=
  { start_date := 0, end_date := 4, names := ["A", "B", "C", "D"], holidays := [3],
    schedule := [(0, ["A", "B"]), (1, ["A", "B"]), (2, ["A", "B"]), (3, ["B", "D"]),
                 (4, ["A", "C"])],
    assignments := fun _ => Generator.blankStats }

/-- The same state with consistent statistics, via the recompute pass. -/
def c3St : Generator.State := Generator.update_assignments c3Base

/-- Coverage invariant: the schedule has exactly one entry for each day of the
range and every entry holds exactly 2 distinct roster members. -/
def Coverage (s e : Int) (names : List Name) (sched : List (Int × List Name)) :
    Prop :=
  (sched.map Prod.fst).Perm (datesList s e) ∧
    ∀ pr ∈ sched, pr.2.length = 2 ∧ pr.2.Nodup ∧ ∀ n ∈ pr.2, n ∈ names

/-- Weekly-cap invariant on the statistics records. -/
def CapOK (st : Generator.State) : Prop :=
  ∀ n w, (st.assignments n).weeks w ≤ 2

/-- Schedule-shape invariant threaded through the rebalancer: fixed key list,
fixed roster, and every entry a pair of 2 distinct roster members. -/
def SchedInv (keys : List Int) (names : List Name) (st : Generator.State) : Prop :=
  st.schedule.map Prod.fst = keys ∧ st.names = names ∧
    ∀ pr ∈ st.schedule, pr.2.length = 2 ∧ pr.2.Nodup ∧ ∀ n ∈ pr.2, n ∈ names

/-- Pairwise spread bound on totals across the roster. -/
def spreadLe1 (st : Standby.State) : Prop :=
  ∀ a ∈ st.names, ∀ b ∈ st.names,
    (st.assignments a).total ≤ (st.assignments b).total + 1

/-- Sum of the totals across the roster. -/
def totalSum (st : Standby.State) : Int :=
  (st.names.map (fun n => (st.assignments n).total)).sum

/-- All fields of a generator state except the statistics records. -/
def gframe (st : Generator.State) :
    List (Int × List Name) × List Name × Int × Int × List Int :=
  (st.schedule, st.names, st.start_date, st.end_date, st.holidays)

/-- All fields of a standby state except the statistics records. -/
def sframe (st : Standby.State) :
    List (Int × List Name) × List Name × Int × Int × List Int :=
  (st.schedule, st.names, st.start_date, st.end_date, st.holidays)

/-! ## Basic helper lemmas -/

theorem headD_mem (l : List Name) (h : l ≠ []) : l.headD "" ∈ l := by
  cases l with
  | nil => exact absurd rfl h
  | cons x xs => exact List.mem_cons_self x xs

theorem getLastD_mem (l : List Name) (h : l ≠ []) : l.getLastD "" ∈ l := by
  induction l with
  | nil => exact absurd rfl h
  | cons x xs ih =>
    cases xs with
    | nil => simp [List.getLastD]
    | cons y ys => exact List.mem_cons_of_mem x (ih (by simp))

theorem permOK_idRnd : PermOK idRnd := fun _ l => List.Perm.refl l

theorem pickOK_idRnd : PickOK idRnd := fun _ l h => headD_mem l h

theorem pickOK_lastRnd : PickOK lastRnd := fun _ l h => getLastD_mem l h

theorem permOK_lastRnd : PermOK lastRnd := fun _ l => List.Perm.refl l

theorem permOK_rotC7 : PermOK rotC7 := fun k l => List.rotate_perm l (if k = 2 then 2 else 0)

theorem permOK_rotC8 : PermOK rotC8 := fun k l => List.rotate_perm l (if k = 0 then 1 else 0)

/-! ## Frame lemmas for the statistics recompute -/

theorem gframe_noteAssign (st : Generator.State) (d : Int) (n : Name) :
    gframe (Generator.noteAssign st d n) = gframe st := rfl

theorem gframe_inner_fold (d : Int) (l : List Name) :
    ∀ acc : Generator.State,
      gframe (l.foldl (fun a n => Generator.noteAssign a d n) acc) = gframe acc := by
  induction l with
  | nil => intro acc; rfl
  | cons x xs ih => intro acc; exact ih _

theorem gframe_outer_fold (l : List (Int × List Name)) :
    ∀ acc : Generator.State,
      gframe (l.foldl
        (fun acc pr => pr.2.foldl (fun a n => Generator.noteAssign a pr.1 n) acc) acc)
        = gframe acc := by
  induction l with
  | nil => intro acc; rfl
  | cons pr prs ih =>
    intro acc
    rw [List.foldl_cons, ih _, gframe_inner_fold]

theorem gframe_update (st : Generator.State) :
    gframe (Generator.update_assignments st) = gframe st := by
  rw [Generator.update_assignments, gframe_outer_fold]
  rfl

theorem update_schedule_eq (st : Generator.State) :
    (Generator.update_assignments st).schedule = st.schedule :=
  congrArg (fun t => t.1) (gframe_update st)

theorem update_names_eq (st : Generator.State) :
    (Generator.update_assignments st).names = st.names :=
  congrArg (fun t => t.2.1) (gframe_update st)

theorem update_start_eq (st : Generator.State) :
    (Generator.update_assignments st).start_date = st.start_date :=
  congrArg (fun t => t.2.2.1) (gframe_update st)

theorem update_end_eq (st : Generator.State) :
    (Generator.update_assignments st).end_date = st.end_date :=
  congrArg (fun t => t.2.2.2.1) (gframe_update st)

theorem update_holidays_eq (st : Generator.State) :
    (Generator.update_assignments st).holidays = st.holidays :=
  congrArg (fun t => t.2.2.2.2) (gframe_update st)

/-- Claim C10: the statistics recompute `update_assignments` never modifies the
schedule (nor any other non-statistics field): the mapping from days to
assignee pairs is identical before and after the call; only the per-person
statistics records are written. -/
theorem C10_update_frame (st : Generator.State) :
    (Generator.update_assignments st).schedule = st.schedule ∧
    (Generator.update_assignments st).names = st.names ∧
    (Generator.update_assignments st).start_date = st.start_date ∧
    (Generator.update_assignments st).end_date = st.end_date ∧
    (Generator.update_assignments st).holidays = st.holidays :=
  ⟨update_schedule_eq st, update_names_eq st, update_start_eq st,
    update_end_eq st, update_holidays_eq st⟩

/-! ## Claim C2: constructor validation -/

/-- Claim C2 counterexample: constructing the engine with `end_date` strictly
before `start_date` does not fail with `InvalidRangeError`, and constructing it
with a roster of fewer than 2 people does not fail with
`InsufficientRosterError` — the source constructor contains no validation. -/
theorem C2_cex :
    Generator.init 5 0 ["A", "B"] [] ≠
        Except.error Generator.SchedError.invalidRange ∧
    Generator.init 0 5 ["A"] [] ≠
        Except.error Generator.SchedError.insufficientRoster :=
  ⟨fun h => Except.noConfusion h, fun h => Except.noConfusion h⟩

/-- Claim C2 (amended): the constructor performs no validation and never
raises: for every input, including `end_date < start_date` and rosters of
fewer than 2 people, construction succeeds and simply stores the inputs.  With
`end_date < start_date` the date range is empty (so generation covers no days
and raises nothing); running the generator variant with a one-person roster
fails with an unhandled `IndexError` (embedded as `none`), not with
`InsufficientRosterError`. -/
theorem C2_amended (s e : Int) (ns : List Name) (hs : List Int)
    (r : Rnd) (hr : PermOK r) (hlt : e < s) :
    Generator.init s e ns hs = Except.ok (Generator.initState s e ns hs) ∧
    datesList s e = [] ∧
    Generator.initialPhase r (Generator.initState 0 0 ["A"] []) = none := by
  refine ⟨rfl, ?_, ?_⟩
  · rw [datesList]
    have h0 : (e - s + 1).toNat = 0 := Int.toNat_eq_zero.mpr (by omega)
    rw [h0]
    rfl
  · have hsing : r.perm (α := Name) 0 ["A"] = ["A"] :=
      List.perm_singleton.mp (hr 0 ["A"])
    have hnil : ∀ k, r.perm (α := Name) k [] = [] := fun k => (hr k []).eq_nil
    have hdates : datesList (Generator.initState 0 0 ["A"] []).start_date
        (Generator.initState 0 0 ["A"] []).end_date = [0] := rfl
    have hday : Generator.assignDay r (Generator.initState 0 0 ["A"] []) 0 0 = none := by
      have hpool : (if (Generator.strictPool (Generator.initState 0 0 ["A"] []) 0).length < 2
          then Generator.relaxedPool (Generator.initState 0 0 ["A"] []) 0
          else Generator.strictPool (Generator.initState 0 0 ["A"] []) 0) = ["A"] := rfl
      have hnames : (Generator.initState 0 0 ["A"] []).names = ["A"] := rfl
      have hf : List.filter (fun n => !((["A"] : List Name).contains n)) ["A"] = [] := rfl
      simp only [Generator.assignDay, hpool, hsing, Generator.popNext, hnames, hf, hnil]
    simp only [Generator.initialPhase, hdates]
    simp only [Generator.assignLoop]
    simp only [hday]

/-- Claim C2 witness: the amended statement at a concrete bad range and the
identity oracle. -/
theorem C2_amended_witness :
    PermOK idRnd ∧ (0 : Int) < 5 ∧
    (Generator.init 5 0 ["B", "C"] [] =
        Except.ok (Generator.initState 5 0 ["B", "C"] []) ∧
      datesList 5 0 = [] ∧
      Generator.initialPhase idRnd (Generator.initState 0 0 ["A"] []) = none) :=
  ⟨permOK_idRnd, by decide,
    C2_amended 5 0 ["B", "C"] [] idRnd permOK_idRnd (by decide)⟩

/-! ## Claim C9: rebalancer termination bound -/

theorem equalizeLoop_iters (r : Rnd) :
    ∀ (fuel : Nat) (st : Generator.State) (k iters : Nat),
      (Generator.equalizeLoop r fuel st k iters).2.1 ≤ iters + fuel := by
  intro fuel
  induction fuel with
  | zero =>
    intro st k iters
    simp [Generator.equalizeLoop]
  | succ n ih =>
    intro st k iters
    rw [Generator.equalizeLoop]
    by_cases h : Generator.spreadOK st
    · simp only [h, if_true]
      omega
    · simp only [h, if_false]
      exact le_trans (ih _ _ (iters + 1)) (by omega)

/-- Claim C9: for every input schedule and every non-empty roster, the
rebalancing loop `equalize_shifts` terminates, performing at most `maxIter`
(default 2000) full passes over the days — even when the spread target is
unreachable — and then returns normally. -/
theorem C9_rebalancer_iters (r : Rnd) (st : Generator.State) (k maxIter : Nat)
    (hne : st.names ≠ []) :
    (Generator.equalize_shifts r st k maxIter).2.1 ≤ maxIter := by
  have h := equalizeLoop_iters r maxIter st k 0
  simpa [Generator.equalize_shifts] using h

/-- Claim C9 witness: the bound at a concrete state, oracle and cap. -/
theorem C9_rebalancer_iters_witness :
    (Generator.initState 0 3 ["A", "B"] []).names ≠ [] ∧
    (Generator.equalize_shifts idRnd (Generator.initState 0 3 ["A", "B"] []) 0 2000).2.1
      ≤ 2000 :=
  ⟨by decide, C9_rebalancer_iters idRnd _ 0 2000 (by decide)⟩

/-! ## Claim C6: statistics recompute consistency and idempotence -/

theorem noteAssign_assign_other (a : Generator.State) (d : Int) (n p : Name)
    (h : p ≠ n) :
    (Generator.noteAssign a d n).assignments p = a.assignments p := by
  simp [Generator.noteAssign, h]

theorem noteAssign_dates (a : Generator.State) (d : Int) (n p : Name) :
    ((Generator.noteAssign a d n).assignments p).dates =
      if p = n then (a.assignments p).dates ++ [d] else (a.assignments p).dates := by
  by_cases h : p = n
  · subst h; simp [Generator.noteAssign]
  · simp [Generator.noteAssign, h]

theorem inner_fold_dates_mem (d : Int) (l : List Name) (p : Name) (x : Int) :
    ∀ acc : Generator.State,
      (x ∈ ((l.foldl (fun a n => Generator.noteAssign a d n) acc).assignments p).dates
        ↔ x ∈ (acc.assignments p).dates ∨ (p ∈ l ∧ x = d)) := by
  induction l with
  | nil => intro acc; simp
  | cons y ys ih =>
    intro acc
    rw [List.foldl_cons, ih]
    rw [noteAssign_dates]
    by_cases h : p = y
    · subst h
      rw [if_pos rfl]
      simp only [List.mem_append, List.mem_singleton, List.mem_cons]
      tauto
    · simp only [if_neg h, List.mem_cons]
      tauto

theorem outer_fold_dates_mem (l : List (Int × List Name)) (p : Name) (x : Int) :
    ∀ acc : Generator.State,
      (x ∈ ((l.foldl
          (fun acc pr => pr.2.foldl (fun a n => Generator.noteAssign a pr.1 n) acc)
          acc).assignments p).dates
        ↔ x ∈ (acc.assignments p).dates ∨ ∃ pr ∈ l, pr.1 = x ∧ p ∈ pr.2) := by
  induction l with
  | nil => intro acc; simp
  | cons pr prs ih =>
    intro acc
    rw [List.foldl_cons, ih, inner_fold_dates_mem]
    constructor
    · rintro ((h | ⟨h1, h2⟩) | ⟨q, hq, h1, h2⟩)
      · exact Or.inl h
      · exact Or.inr ⟨pr, List.mem_cons_self _ _, h2.symm, h1⟩
      · exact Or.inr ⟨q, List.mem_cons_of_mem _ hq, h1, h2⟩
    · rintro (h | ⟨q, hq, h1, h2⟩)
      · exact Or.inl (Or.inl h)
      · rcases List.mem_cons.mp hq with h3 | h3
        · subst h3; exact Or.inl (Or.inr ⟨h2, h1.symm⟩)
        · exact Or.inr ⟨q, h3, h1, h2⟩

theorem resetStats_assign_mem (st : Generator.State) (p : Name) (hp : p ∈ st.names) :
    (Generator.resetStats st).assignments p = Generator.blankStats := by
  simp only [Generator.resetStats]
  rw [if_pos (show st.names.contains p = true by simpa using hp)]

theorem resetStats_assign_other (st : Generator.State) (p : Name) (hp : p ∉ st.names) :
    (Generator.resetStats st).assignments p = st.assignments p := by
  simp only [Generator.resetStats]
  rw [if_neg (show ¬ st.names.contains p = true by simpa using hp)]

/-- Membership characterization: after the recompute, the date list of a roster
member holds exactly the days of the schedule on which that member appears. -/
theorem update_dates_mem (st : Generator.State) (p : Name) (hp : p ∈ st.names)
    (x : Int) :
    x ∈ ((Generator.update_assignments st).assignments p).dates ↔
      ∃ pr ∈ st.schedule, pr.1 = x ∧ p ∈ pr.2 := by
  rw [Generator.update_assignments, outer_fold_dates_mem, resetStats_assign_mem st p hp]
  simp [Generator.blankStats]

theorem gstate_eq (a b : Generator.State) (h : gframe a = gframe b)
    (h2 : a.assignments = b.assignments) : a = b := by
  cases a
  cases b
  simp only [gframe, Prod.mk.injEq] at h
  simp_all

theorem inner_fold_assign_other (d : Int) (l : List Name) (p : Name) :
    p ∉ l → ∀ acc : Generator.State,
      (l.foldl (fun a n => Generator.noteAssign a d n) acc).assignments p
        = acc.assignments p := by
  induction l with
  | nil => intro _ acc; rfl
  | cons y ys ih =>
    intro hp acc
    rw [List.foldl_cons, ih (fun h => hp (List.mem_cons_of_mem _ h)),
      noteAssign_assign_other _ _ _ _
        (fun h => hp (by rw [h]; exact List.mem_cons_self _ _))]

theorem outer_fold_assign_other (l : List (Int × List Name)) (p : Name) :
    (∀ pr ∈ l, p ∉ pr.2) → ∀ acc : Generator.State,
      (l.foldl
          (fun acc pr => pr.2.foldl (fun a n => Generator.noteAssign a pr.1 n) acc)
          acc).assignments p = acc.assignments p := by
  induction l with
  | nil => intro _ acc; rfl
  | cons pr prs ih =>
    intro hp acc
    rw [List.foldl_cons, ih (fun q hq => hp q (List.mem_cons_of_mem _ hq)),
      inner_fold_assign_other _ _ _ (hp pr (List.mem_cons_self _ _))]

theorem update_assign_other (st : Generator.State) (p : Name) (hp : p ∉ st.names)
    (hsub : ∀ pr ∈ st.schedule, ∀ q ∈ pr.2, q ∈ st.names) :
    (Generator.update_assignments st).assignments p = st.assignments p := by
  rw [Generator.update_assignments,
    outer_fold_assign_other _ _ (fun pr hpr h => hp (hsub pr hpr p h)),
    resetStats_assign_other st p hp]

theorem resetStats_update (st : Generator.State)
    (hsub : ∀ pr ∈ st.schedule, ∀ q ∈ pr.2, q ∈ st.names) :
    Generator.resetStats (Generator.update_assignments st)
      = Generator.resetStats st := by
  apply gstate_eq
  · show gframe (Generator.update_assignments st) = gframe st
    exact gframe_update st
  · funext n
    show (if (Generator.update_assignments st).names.contains n then
        Generator.blankStats else (Generator.update_assignments st).assignments n)
      = (if st.names.contains n then Generator.blankStats else st.assignments n)
    rw [update_names_eq]
    by_cases hn : n ∈ st.names
    · rw [if_pos (by simpa using hn), if_pos (by simpa using hn)]
    · rw [if_neg (by simpa using hn), if_neg (by simpa using hn)]
      exact update_assign_other st n hn hsub

theorem update_idem (st : Generator.State)
    (hsub : ∀ pr ∈ st.schedule, ∀ q ∈ pr.2, q ∈ st.names) :
    Generator.update_assignments (Generator.update_assignments st)
      = Generator.update_assignments st := by
  conv_lhs => rw [Generator.update_assignments]
  rw [update_schedule_eq, resetStats_update st hsub]
  rfl

/-- Claim C6: the statistics recompute rebuilds every per-person aggregate
purely from the schedule — after it runs, the date set of every roster member
is exactly the set of days of the schedule on which that member appears — and
running it twice in a row yields identical results (idempotence). -/
theorem C6_recompute (st : Generator.State) (p : Name) (hp : p ∈ st.names)
    (hsub : ∀ pr ∈ st.schedule, ∀ q ∈ pr.2, q ∈ st.names) :
    (∀ x : Int, x ∈ ((Generator.update_assignments st).assignments p).dates ↔
        ∃ pr ∈ st.schedule, pr.1 = x ∧ p ∈ pr.2) ∧
    Generator.update_assignments (Generator.update_assignments st)
      = Generator.update_assignments st :=
  ⟨fun x => update_dates_mem st p hp x, update_idem st hsub⟩

/-- Claim C6 witness: the recompute contract at a concrete schedule. -/
theorem C6_recompute_witness :
    "A" ∈ c3Base.names ∧ (∀ pr ∈ c3Base.schedule, ∀ q ∈ pr.2, q ∈ c3Base.names) ∧
    ((∀ x : Int, x ∈ ((Generator.update_assignments c3Base).assignments "A").dates ↔
        ∃ pr ∈ c3Base.schedule, pr.1 = x ∧ "A" ∈ pr.2) ∧
      Generator.update_assignments (Generator.update_assignments c3Base)
        = Generator.update_assignments c3Base) :=
  ⟨by decide, by decide, C6_recompute c3Base "A" (by decide) (by decide)⟩

/-! ## Claim C8: last_assigned is the latest assigned day (recompute variant) -/

theorem noteAssign_last_inv (a : Generator.State) (d : Int) (n p : Name)
    (h1 : (a.assignments p).last_assigned = none → (a.assignments p).dates = [])
    (h2 : ∀ m, (a.assignments p).last_assigned = some m →
        m ∈ (a.assignments p).dates ∧ ∀ x ∈ (a.assignments p).dates, x ≤ m) :
    (((Generator.noteAssign a d n).assignments p).last_assigned = none →
        ((Generator.noteAssign a d n).assignments p).dates = []) ∧
    ∀ m, ((Generator.noteAssign a d n).assignments p).last_assigned = some m →
        m ∈ ((Generator.noteAssign a d n).assignments p).dates ∧
          ∀ x ∈ ((Generator.noteAssign a d n).assignments p).dates, x ≤ m := by
  by_cases hpn : p = n
  · subst hpn
    have hdates : ((Generator.noteAssign a d p).assignments p).dates
        = (a.assignments p).dates ++ [d] := by simp [Generator.noteAssign]
    have hlast : ((Generator.noteAssign a d p).assignments p).last_assigned
        = match (a.assignments p).last_assigned with
          | none => some d
          | some x => if x < d then some d else some x := by
      simp [Generator.noteAssign]
    rw [hdates, hlast]
    rcases hl : (a.assignments p).last_assigned with _ | x
    · refine ⟨fun h => by simp at h, ?_⟩
      intro m hm
      have hdm : d = m := by simpa using hm
      subst hdm
      have hnil := h1 hl
      rw [hnil]
      simp
    · obtain ⟨hx1, hx2⟩ := h2 x hl
      dsimp only
      by_cases hlt : x < d
      · rw [if_pos hlt]
        refine ⟨fun h => by simp at h, ?_⟩
        intro m hm
        have hdm : d = m := by simpa using hm
        subst hdm
        refine ⟨by simp, ?_⟩
        intro y hy
        rcases List.mem_append.mp hy with hy | hy
        · exact le_trans (hx2 y hy) (le_of_lt hlt)
        · simp at hy; omega
      · rw [if_neg hlt]
        refine ⟨fun h => by simp at h, ?_⟩
        intro m hm
        have hxm : x = m := by simpa using hm
        subst hxm
        refine ⟨List.mem_append_left _ hx1, ?_⟩
        intro y hy
        rcases List.mem_append.mp hy with hy | hy
        · exact hx2 y hy
        · simp at hy; omega
  · rw [noteAssign_assign_other a d n p hpn]
    exact ⟨h1, h2⟩

theorem inner_fold_last_inv (d : Int) (l : List Name) (p : Name) :
    ∀ acc : Generator.State,
      ((acc.assignments p).last_assigned = none → (acc.assignments p).dates = []) →
      (∀ m, (acc.assignments p).last_assigned = some m →
          m ∈ (acc.assignments p).dates ∧ ∀ x ∈ (acc.assignments p).dates, x ≤ m) →
      ∀ b, b = l.foldl (fun a n => Generator.noteAssign a d n) acc →
        (((b.assignments p).last_assigned = none → (b.assignments p).dates = []) ∧
          ∀ m, (b.assignments p).last_assigned = some m →
            m ∈ (b.assignments p).dates ∧ ∀ x ∈ (b.assignments p).dates, x ≤ m) := by
  induction l with
  | nil => intro acc ha1 ha2 b hb; subst hb; exact ⟨ha1, ha2⟩
  | cons y ys ih =>
    intro acc ha1 ha2 b hb
    obtain ⟨hb1, hb2⟩ := noteAssign_last_inv acc d y p ha1 ha2
    exact ih (Generator.noteAssign acc d y) hb1 hb2 b (by simpa using hb)

theorem outer_fold_last_inv (l : List (Int × List Name)) (p : Name) :
    ∀ acc : Generator.State,
      ((acc.assignments p).last_assigned = none → (acc.assignments p).dates = []) →
      (∀ m, (acc.assignments p).last_assigned = some m →
          m ∈ (acc.assignments p).dates ∧ ∀ x ∈ (acc.assignments p).dates, x ≤ m) →
      ∀ b, b = l.foldl
          (fun acc pr => pr.2.foldl (fun a n => Generator.noteAssign a pr.1 n) acc) acc →
        (((b.assignments p).last_assigned = none → (b.assignments p).dates = []) ∧
          ∀ m, (b.assignments p).last_assigned = some m →
            m ∈ (b.assignments p).dates ∧ ∀ x ∈ (b.assignments p).dates, x ≤ m) := by
  induction l with
  | nil => intro acc ha1 ha2 b hb; subst hb; exact ⟨ha1, ha2⟩
  | cons pr prs ih =>
    intro acc ha1 ha2 b hb
    obtain ⟨hb1, hb2⟩ := inner_fold_last_inv pr.1 pr.2 p acc ha1 ha2 _ rfl
    exact ih _ hb1 hb2 b (by simpa using hb)

/-- Claim C8 (amended): in the generator variant, after every completed phase
(each phase ends with the `update_assignments` recompute) the `last_assigned`
field of every roster member with at least one assignment is the maximum day on
which that member appears in the schedule.  In the `Standby.py` variant this
fails: `last_assigned` is the last *processed* date and dates are processed in
shuffled order (see the counterexample). -/
theorem C8_last_assigned (st : Generator.State) (p : Name) (hp : p ∈ st.names) :
    (((Generator.update_assignments st).assignments p).dates ≠ [] →
        ((Generator.update_assignments st).assignments p).last_assigned ≠ none) ∧
    ∀ m, ((Generator.update_assignments st).assignments p).last_assigned = some m →
        (∃ pr ∈ st.schedule, pr.1 = m ∧ p ∈ pr.2) ∧
        ∀ x, (∃ pr ∈ st.schedule, pr.1 = x ∧ p ∈ pr.2) → x ≤ m := by
  have hbase := outer_fold_last_inv st.schedule p (Generator.resetStats st)
    (by rw [resetStats_assign_mem st p hp]; intro _; rfl)
    (by rw [resetStats_assign_mem st p hp]; intro m hm
        exact absurd hm (by simp [Generator.blankStats]))
    (Generator.update_assignments st) rfl
  obtain ⟨hb1, hb2⟩ := hbase
  constructor
  · intro hne hnone
    exact hne (hb1 hnone)
  · intro m hm
    obtain ⟨hmem, hbound⟩ := hb2 m hm
    constructor
    · exact (update_dates_mem st p hp m).mp hmem
    · intro x hx
      exact hbound x ((update_dates_mem st p hp x).mpr hx)

/-- Claim C8 witness: the amended statement at a concrete schedule. -/
theorem C8_last_assigned_witness :
    "A" ∈ c3Base.names ∧
    ((((Generator.update_assignments c3Base).assignments "A").dates ≠ [] →
        ((Generator.update_assignments c3Base).assignments "A").last_assigned ≠ none) ∧
      ∀ m, ((Generator.update_assignments c3Base).assignments "A").last_assigned
            = some m →
        (∃ pr ∈ c3Base.schedule, pr.1 = m ∧ "A" ∈ pr.2) ∧
        ∀ x, (∃ pr ∈ c3Base.schedule, pr.1 = x ∧ "A" ∈ pr.2) → x ≤ m) :=
  ⟨by decide, C8_last_assigned c3Base "A" (by decide)⟩

/-- Claim C8 counterexample: in the `Standby.py` variant with roster `[A, B]`
over days 0 and 1, an oracle whose date shuffle processes day 1 first leaves
`last_assigned = some 0` for a person whose assigned days are `[1, 0]` — the
chronologically most recent assigned day is 1, not 0. -/
theorem C8_cex :
    PermOK rotC8 ∧
    (Standby.generate_schedule rotC8 (Standby.initState 0 1 ["A", "B"] [])).map
        (fun t => ((t.1.assignments "A").last_assigned, (t.1.assignments "A").dates,
          t.1.schedule))
      = some (some 0, [1, 0], [(1, ["A", "B"]), (0, ["A", "B"])]) ∧
    ((0 : Int) < 1 ∧ (1 : Int) ∈ [(1 : Int), 0]) :=
  ⟨permOK_rotC8, by decide, by decide, by decide⟩

/-! ## Claim C3: rebalancer replacement choice -/

/-- Claim C3 (amended): in every rebalancer swap, when the replacement
candidate set is non-empty, the candidate actually chosen is
`random.choice(candidates)` — an arbitrary member of the candidate set, not
necessarily the one with the globally lowest `(total, special_days)` tuple
(the counterexample exhibits a swap choosing a lexicographically larger
candidate). -/
theorem C3_swap_member (r : Rnd) (hr : PickOK r) (st : Generator.State)
    (k : Nat) (d : Int) (i : Nat)
    (hover : Generator.overLoaded st (Generator.is_special_day st d)
        (((List.lookup d st.schedule).getD []).getD i "") = true)
    (hcs : Generator.candidatesFor st d (Generator.is_special_day st d)
        ((List.lookup d st.schedule).getD []) ≠ []) :
    ∃ repl ∈ Generator.candidatesFor st d (Generator.is_special_day st d)
        ((List.lookup d st.schedule).getD []),
      (Generator.rebalanceSlot r st k d i).1.schedule
        = Generator.setSlot st.schedule d
            (((List.lookup d st.schedule).getD []).set i repl) ∧
      (Generator.rebalanceSlot r st k d i).2 = k + 1 := by
  rw [Generator.rebalanceSlot]
  simp only
  rw [if_pos hover]
  rcases hc : Generator.candidatesFor st d (Generator.is_special_day st d)
      ((List.lookup d st.schedule).getD []) with _ | ⟨c, cs⟩
  · exact absurd hc hcs
  · refine ⟨r.pick k (c :: cs), ?_, ?_, ?_⟩
    · exact hr k (c :: cs) (by simp)
    · rfl
    · rfl

/-- Claim C3 witness: the amended statement at the concrete swap. -/
theorem C3_swap_member_witness :
    PickOK lastRnd ∧
    Generator.overLoaded c3St (Generator.is_special_day c3St 0)
        (((List.lookup 0 c3St.schedule).getD []).getD 0 "") = true ∧
    Generator.candidatesFor c3St 0 (Generator.is_special_day c3St 0)
        ((List.lookup 0 c3St.schedule).getD []) ≠ [] ∧
    ∃ repl ∈ Generator.candidatesFor c3St 0 (Generator.is_special_day c3St 0)
        ((List.lookup 0 c3St.schedule).getD []),
      (Generator.rebalanceSlot lastRnd c3St 0 0 0).1.schedule
        = Generator.setSlot c3St.schedule 0
            (((List.lookup 0 c3St.schedule).getD []).set 0 repl) ∧
      (Generator.rebalanceSlot lastRnd c3St 0 0 0).2 = 0 + 1 :=
  ⟨pickOK_lastRnd, by decide, by decide,
    C3_swap_member lastRnd pickOK_lastRnd c3St 0 0 0 (by decide) (by decide)⟩

/-- Claim C3 counterexample: a rebalancer swap in which the candidate set is
`[C, D]`, candidate `C` has the strictly lowest `(total, special_days)` tuple
`(1, 0)`, yet the swap (whose `random.choice` returns the last candidate)
writes `D` with tuple `(1, 1)` into the slot: the chosen candidate is not the
one with the globally lowest tuple. -/
theorem C3_cex :
    PickOK lastRnd ∧
    List.lookup 0 c3St.schedule = some ["A", "B"] ∧
    Generator.is_special_day c3St 0 = false ∧
    Generator.overLoaded c3St false "A" = true ∧
    Generator.candidatesFor c3St 0 false ["A", "B"] = ["C", "D"] ∧
    ((c3St.assignments "C").total, (c3St.assignments "C").special_days) = (1, 0) ∧
    ((c3St.assignments "D").total, (c3St.assignments "D").special_days) = (1, 1) ∧
    List.lookup 0 (Generator.rebalanceSlot lastRnd c3St 0 0 0).1.schedule
      = some ["D", "B"] ∧
    ((1 : Int) = 1 ∧ (0 : Int) < 1) :=
  ⟨pickOK_lastRnd, by decide, by decide, by decide, by decide, by decide, by decide,
    by decide, by decide⟩

/-! ## Claim C4: weekly cap -/

theorem decStats_weeks_le (st : Generator.State) (d : Int) (b : Bool) (o n : Name)
    (w : Int) :
    ((Generator.decStats st d b o).assignments n).weeks w
      ≤ (st.assignments n).weeks w := by
  by_cases h : n = o
  · subst h
    simp only [Generator.decStats, if_true]
    split <;> omega
  · simp [Generator.decStats, h]

theorem incStats_cap (st : Generator.State) (d : Int) (b : Bool) (inN : Name)
    (hcap : CapOK st)
    (hin : (st.assignments inN).weeks (Generator.get_week_number st d) < 2) :
    CapOK (Generator.incStats st d b inN) := by
  intro n w
  by_cases h : n = inN
  · subst h
    simp only [Generator.incStats, if_true]
    split
    · rename_i hw
      rw [hw]
      omega
    · exact hcap n w
  · simp only [Generator.incStats]
    rw [if_neg h]
    exact hcap n w

theorem candidates_available (st : Generator.State) (d : Int) (b : Bool)
    (pair : List Name) (repl : Name)
    (h : repl ∈ Generator.candidatesFor st d b pair) :
    (st.assignments repl).weeks (Generator.get_week_number st d) < 2 := by
  obtain ⟨-, hpred⟩ := List.mem_filter.mp h
  have : Generator.is_available st repl d = true := by
    simp only [Bool.and_eq_true] at hpred
    exact hpred.1.2
  simpa [Generator.is_available] using this

theorem rebalanceSlot_cap (r : Rnd) (hr : PickOK r) (st : Generator.State)
    (k : Nat) (d : Int) (i : Nat) (hcap : CapOK st) :
    CapOK (Generator.rebalanceSlot r st k d i).1 := by
  rw [Generator.rebalanceSlot]
  simp only
  split
  · rcases hc : Generator.candidatesFor st d (Generator.is_special_day st d)
        ((List.lookup d st.schedule).getD []) with _ | ⟨c, cs⟩
    · exact hcap
    · dsimp only
      have hrepl : r.pick k (c :: cs) ∈ Generator.candidatesFor st d
          (Generator.is_special_day st d) ((List.lookup d st.schedule).getD []) := by
        rw [hc]; exact hr k (c :: cs) (by simp)
      have hav := candidates_available st d (Generator.is_special_day st d)
        ((List.lookup d st.schedule).getD []) _ hrepl
      apply incStats_cap
      · exact fun n w => le_trans (decStats_weeks_le _ d _ _ n w) (hcap n w)
      · exact lt_of_le_of_lt (decStats_weeks_le _ d _ _ _ _) hav
  · exact hcap

theorem rebalanceDay_cap (r : Rnd) (hr : PickOK r) (st : Generator.State)
    (k : Nat) (d : Int) (hcap : CapOK st) :
    CapOK (Generator.rebalanceDay r st k d).1 := by
  rw [Generator.rebalanceDay]
  exact rebalanceSlot_cap r hr _ _ _ _ (rebalanceSlot_cap r hr _ _ _ _ hcap)

theorem rebalancePass_cap (r : Rnd) (hr : PickOK r) (ds : List Int) :
    ∀ (st : Generator.State) (k : Nat), CapOK st →
      CapOK (Generator.rebalancePass r st k ds).1 := by
  induction ds with
  | nil => intro st k hcap; exact hcap
  | cons d rest ih =>
    intro st k hcap
    rw [Generator.rebalancePass]
    exact ih _ _ (rebalanceDay_cap r hr st k d hcap)

theorem equalizeLoop_cap (r : Rnd) (hr : PickOK r) :
    ∀ (fuel : Nat) (st : Generator.State) (k iters : Nat), CapOK st →
      CapOK (Generator.equalizeLoop r fuel st k iters).1 := by
  intro fuel
  induction fuel with
  | zero => intro st k iters hcap; exact hcap
  | succ n ih =>
    intro st k iters hcap
    rw [Generator.equalizeLoop]
    split
    · exact hcap
    · exact ih _ _ _ (rebalancePass_cap r hr _ st k hcap)

/-- Claim C4 (amended): the rebalancing loop preserves the weekly cap — a swap
only ever installs a replacement whose week counter is below 2, so if
`weekly_count[w] <= 2` holds for every person and week when rebalancing starts,
it still holds after every pass.  The *initial assignment* phase, however, can
violate the cap when the relaxation fallback fires (see the counterexample,
where a roster of 2 over 3 days leaves a person with 3 assignments in week 0
through the full pipeline). -/
theorem C4_cap_preserved (r : Rnd) (hr : PickOK r) (fuel : Nat)
    (st : Generator.State) (k iters : Nat) (hcap : CapOK st) :
    CapOK (Generator.equalizeLoop r fuel st k iters).1 :=
  equalizeLoop_cap r hr fuel st k iters hcap

/-- Claim C4 witness: cap preservation at a concrete state and oracle. -/
theorem C4_cap_preserved_witness :
    PickOK idRnd ∧ CapOK (Generator.initState 0 2 ["A", "B"] []) ∧
    CapOK (Generator.equalizeLoop idRnd 5 (Generator.initState 0 2 ["A", "B"] []) 0 0).1 :=
  have hcap : CapOK (Generator.initState 0 2 ["A", "B"] []) := fun n w => by
    norm_num [Generator.initState, Generator.blankStats]
  ⟨pickOK_idRnd, hcap,
    C4_cap_preserved idRnd pickOK_idRnd 5 (Generator.initState 0 2 ["A", "B"] []) 0 0 hcap⟩

/-- Claim C4 counterexample: with roster `[A, B]` over days 0-2 (all in week 0)
the relaxation fallback of initial assignment assigns both people every day, so
after the full pipeline (initial assignment, recompute and rebalancing — which
stops immediately since both spreads are 0) person `A` has `weekly_count[0] = 3
> 2`. -/
theorem C4_cex :
    PermOK idRnd ∧ PickOK idRnd ∧
    (Generator.generate_schedule idRnd (Generator.initState 0 2 ["A", "B"] [])).map
        (fun t => ((t.1.assignments "A").weeks 0, t.1.schedule))
      = some (3, [(0, ["A", "B"]), (1, ["A", "B"]), (2, ["A", "B"])]) ∧
    ¬ ((3 : Int) ≤ 2) :=
  ⟨permOK_idRnd, pickOK_idRnd, by decide, by decide⟩

/-! ## Claim C5: the relaxation ladder of initial assignment -/

theorem filter_empty_shift (names : List Name) :
    names.filter (fun n => !(([] : List Name).contains n)) = names := by
  simp

theorem mem_filter_ne (names : List Name) (a z : Name) :
    z ∈ names.filter (fun n => !((([a] : List Name)).contains n)) ↔
      z ∈ names ∧ z ≠ a := by
  simp [List.mem_filter]

theorem filter_ne_nonempty (names : List Name) (a : Name) (h2 : 2 ≤ names.length)
    (hnd : names.Nodup) :
    names.filter (fun n => !((([a] : List Name)).contains n)) ≠ [] := by
  rcases names with _ | ⟨x, t⟩
  · simp at h2
  rcases t with _ | ⟨y, t2⟩
  · simp at h2
  have hxy : x ≠ y := by
    intro h
    subst h
    exact (List.nodup_cons.mp hnd).1 (List.mem_cons_self _ _)
  by_cases hxa : x = a
  · subst hxa
    have : y ∈ (x :: y :: t2).filter (fun n => !((([x] : List Name)).contains n)) :=
      (mem_filter_ne _ _ _).mpr ⟨List.mem_cons_of_mem _ (List.mem_cons_self _ _),
        fun h => hxy h.symm⟩
    exact List.ne_nil_of_mem this
  · have : x ∈ (x :: y :: t2).filter (fun n => !((([a] : List Name)).contains n)) :=
      (mem_filter_ne _ _ _).mpr ⟨List.mem_cons_self _ _, hxa⟩
    exact List.ne_nil_of_mem this

theorem assignDay_eq (r : Rnd) (st : Generator.State) (k : Nat) (d : Int) :
    Generator.assignDay r st k d =
      match Generator.popNext r (k + 1) st.names []
          (r.perm k (if (Generator.strictPool st d).length < 2
            then Generator.relaxedPool st d else Generator.strictPool st d)) with
      | none => none
      | some (n1, avail1, k1) =>
        match Generator.popNext r k1 st.names [n1] avail1 with
        | none => none
        | some (n2, _, k2) =>
          some ({ Generator.bumpWeek
              (Generator.bumpWeek st n1 (Generator.get_week_number st d)) n2
              (Generator.get_week_number st d) with
            schedule := st.schedule ++ [(d, [n1, n2])] }, k2) := rfl

theorem assignDay_spec (r : Rnd) (hr : PermOK r) (st : Generator.State) (k : Nat)
    (d : Int) (h2 : 2 ≤ st.names.length) (hnd : st.names.Nodup) :
    ∃ n1 n2 st2 k2,
      Generator.assignDay r st k d = some (st2, k2) ∧
      n1 ∈ st.names ∧ n2 ∈ st.names ∧ n1 ≠ n2 ∧
      st2.schedule = st.schedule ++ [(d, [n1, n2])] ∧
      st2.names = st.names ∧ st2.start_date = st.start_date ∧
      st2.end_date = st.end_date ∧ st2.holidays = st.holidays ∧
      (2 ≤ (Generator.strictPool st d).length →
        n1 ∈ Generator.strictPool st d ∧ n2 ∈ Generator.strictPool st d) ∧
      ((Generator.strictPool st d).length < 2 →
        2 ≤ (Generator.relaxedPool st d).length →
        n1 ∈ Generator.relaxedPool st d ∧ n2 ∈ Generator.relaxedPool st d) := by
  have hPnodup : (if (Generator.strictPool st d).length < 2
      then Generator.relaxedPool st d else Generator.strictPool st d).Nodup := by
    split <;> exact hnd.filter _
  have hPsub : ∀ x, x ∈ (if (Generator.strictPool st d).length < 2
      then Generator.relaxedPool st d else Generator.strictPool st d) →
      x ∈ st.names := by
    split <;> exact fun x hx => (List.mem_filter.mp hx).1
  have hperm := hr k (if (Generator.strictPool st d).length < 2
      then Generator.relaxedPool st d else Generator.strictPool st d)
  rw [assignDay_eq]
  rcases havail : r.perm k (if (Generator.strictPool st d).length < 2
      then Generator.relaxedPool st d else Generator.strictPool st d)
    with _ | ⟨x, rest⟩
  · rw [havail] at hperm
    have hPnil := hperm.symm.eq_nil
    simp only [Generator.popNext]
    rw [filter_empty_shift]
    rcases href : r.perm (k + 1) st.names with _ | ⟨x, rest⟩
    · have hp2 := hr (k + 1) st.names
      rw [href] at hp2
      have : st.names = [] := hp2.symm.eq_nil
      rw [this] at h2
      simp at h2
    · have hpermN := hr (k + 1) st.names
      rw [href] at hpermN
      rcases rest with _ | ⟨y, rest2⟩
      · have hlen := hpermN.length_eq
        simp only [List.length_cons, List.length_nil] at hlen
        omega
      · simp only [Generator.popNext]
        have hndN : (x :: y :: rest2).Nodup := hpermN.nodup_iff.mpr hnd
        refine ⟨x, y, _, _, rfl, hpermN.subset (List.mem_cons_self _ _),
          hpermN.subset (List.mem_cons_of_mem _ (List.mem_cons_self _ _)),
          ?_, rfl, rfl, rfl, rfl, rfl, ?_, ?_⟩
        · intro hxy
          exact (List.nodup_cons.mp hndN).1 (hxy ▸ List.mem_cons_self _ _)
        · intro hA
          exfalso
          rw [if_neg (by omega)] at hPnil
          rw [hPnil] at hA
          simp at hA
        · intro hB1 hB2
          exfalso
          rw [if_pos hB1] at hPnil
          rw [hPnil] at hB2
          simp at hB2
  · rw [havail] at hperm
    have hxP := hperm.subset (List.mem_cons_self _ _)
    rcases rest with _ | ⟨y, rest2⟩
    · simp only [Generator.popNext]
      rcases href : r.perm (k + 1)
          (st.names.filter (fun n => !((([x] : List Name)).contains n)))
        with _ | ⟨z, rest3⟩
      · have hp2 := hr (k + 1)
          (st.names.filter (fun n => !((([x] : List Name)).contains n)))
        rw [href] at hp2
        exact absurd hp2.symm.eq_nil (filter_ne_nonempty st.names x h2 hnd)
      · have hp2 := hr (k + 1)
          (st.names.filter (fun n => !((([x] : List Name)).contains n)))
        rw [href] at hp2
        have hz := (mem_filter_ne st.names x z).mp
          (hp2.subset (List.mem_cons_self _ _))
        have hlenP := hperm.length_eq
        simp only [List.length_cons, List.length_nil] at hlenP
        refine ⟨x, z, _, _, rfl, hPsub x hxP, hz.1, fun h => hz.2 h.symm,
          rfl, rfl, rfl, rfl, rfl, ?_, ?_⟩
        · intro hA
          exfalso
          rw [if_neg (by omega)] at hlenP
          omega
        · intro hB1 hB2
          exfalso
          rw [if_pos hB1] at hlenP
          omega
    · simp only [Generator.popNext]
      have hyP := hperm.subset (List.mem_cons_of_mem _ (List.mem_cons_self _ _))
      have hndP : (x :: y :: rest2).Nodup := hperm.nodup_iff.mpr hPnodup
      refine ⟨x, y, _, _, rfl, hPsub x hxP, hPsub y hyP, ?_, rfl, rfl, rfl, rfl, rfl,
        ?_, ?_⟩
      · intro hxy
        exact (List.nodup_cons.mp hndP).1 (hxy ▸ List.mem_cons_self _ _)
      · intro hA
        have hc : ¬ (Generator.strictPool st d).length < 2 := by omega
        rw [if_neg hc] at hxP hyP
        exact ⟨hxP, hyP⟩
      · intro hB1 _
        rw [if_pos hB1] at hxP hyP
        exact ⟨hxP, hyP⟩

theorem assignLoop_spec (r : Rnd) (hr : PermOK r) (ds : List Int) :
    ∀ (st : Generator.State) (k : Nat), 2 ≤ st.names.length → st.names.Nodup →
      ∃ st2 k2, Generator.assignLoop r st k ds = some (st2, k2) ∧
        st2.names = st.names ∧ st2.start_date = st.start_date ∧
        st2.end_date = st.end_date ∧ st2.holidays = st.holidays ∧
        ∃ ext, st2.schedule = st.schedule ++ ext ∧ ext.map Prod.fst = ds ∧
          ∀ pr ∈ ext, pr.2.length = 2 ∧ pr.2.Nodup ∧ ∀ n ∈ pr.2, n ∈ st.names := by
  induction ds with
  | nil =>
    intro st k h2 hnd
    exact ⟨st, k, rfl, rfl, rfl, rfl, rfl, [], by simp, rfl, by simp⟩
  | cons d rest ih =>
    intro st k h2 hnd
    obtain ⟨n1, n2, st1, k1, heq, hn1, hn2, hne, hsched, hnames, hstart, hend, hhol,
        -, -⟩ := assignDay_spec r hr st k d h2 hnd
    obtain ⟨st2, k2, heq2, hnames2, hstart2, hend2, hhol2, ext, hext, hmap, hprs⟩ :=
      ih st1 k1 (by rw [hnames]; exact h2) (by rw [hnames]; exact hnd)
    refine ⟨st2, k2, ?_, by rw [hnames2, hnames], by rw [hstart2, hstart],
      by rw [hend2, hend], by rw [hhol2, hhol], (d, [n1, n2]) :: ext, ?_, ?_, ?_⟩
    · have hstep : Generator.assignLoop r st k (d :: rest)
          = Generator.assignLoop r st1 k1 rest := by
        simp only [Generator.assignLoop, heq]
      rw [hstep]
      exact heq2
    · rw [hext, hsched]
      simp
    · simp [hmap]
    · intro pr hpr
      rcases List.mem_cons.mp hpr with h | h
      · subst h
        refine ⟨rfl, by simp [hne], ?_⟩
        intro n hn
        rcases List.mem_cons.mp hn with h1 | h1
        · exact h1 ▸ hn1
        · simp only [List.mem_singleton] at h1
          exact h1 ▸ hn2
      · obtain ⟨hl, hnd1, hsub⟩ := hprs pr h
        exact ⟨hl, hnd1, fun n hn => by rw [← hnames]; exact hsub n hn⟩

/-- Claim C5: during initial assignment, when a day has fewer than 2 candidates
passing both the adjacency and availability predicates, the engine first drops
only the weekly-cap (availability) check while keeping the adjacency check (the
pool becomes `relaxedPool`), and only when still short falls back to the full
roster minus anyone already chosen for this day; the relaxation ladder always
yields 2 distinct roster names for every day whenever the roster size is at
least 2, so the initial phase never fails. -/
theorem C5_relaxation_ladder (r : Rnd) (hr : PermOK r) (st : Generator.State)
    (k : Nat) (d : Int) (h2 : 2 ≤ st.names.length) (hnd : st.names.Nodup) :
    (∃ n1 n2 st2 k2, Generator.assignDay r st k d = some (st2, k2) ∧
      n1 ∈ st.names ∧ n2 ∈ st.names ∧ n1 ≠ n2 ∧
      st2.schedule = st.schedule ++ [(d, [n1, n2])] ∧
      (2 ≤ (Generator.strictPool st d).length →
        n1 ∈ Generator.strictPool st d ∧ n2 ∈ Generator.strictPool st d) ∧
      ((Generator.strictPool st d).length < 2 →
        2 ≤ (Generator.relaxedPool st d).length →
        n1 ∈ Generator.relaxedPool st d ∧ n2 ∈ Generator.relaxedPool st d)) ∧
    ∃ stI kI, Generator.initialPhase r st = some (stI, kI) := by
  constructor
  · obtain ⟨n1, n2, st2, k2, heq, hn1, hn2, hne, hsched, -, -, -, -, hA, hB⟩ :=
      assignDay_spec r hr st k d h2 hnd
    exact ⟨n1, n2, st2, k2, heq, hn1, hn2, hne, hsched, hA, hB⟩
  · obtain ⟨st2, k2, heq, -⟩ :=
      assignLoop_spec r hr (datesList st.start_date st.end_date) st 0 h2 hnd
    refine ⟨Generator.update_assignments st2, k2, ?_⟩
    rw [Generator.initialPhase, heq]

/-- Claim C5 witness: the ladder at a concrete day and roster. -/
theorem C5_relaxation_ladder_witness :
    PermOK idRnd ∧ 2 ≤ (Generator.initState 0 1 ["A", "B"] []).names.length ∧
    (Generator.initState 0 1 ["A", "B"] []).names.Nodup ∧
    ((∃ n1 n2 st2 k2,
        Generator.assignDay idRnd (Generator.initState 0 1 ["A", "B"] []) 0 0
          = some (st2, k2) ∧
        n1 ∈ (Generator.initState 0 1 ["A", "B"] []).names ∧
        n2 ∈ (Generator.initState 0 1 ["A", "B"] []).names ∧ n1 ≠ n2 ∧
        st2.schedule = (Generator.initState 0 1 ["A", "B"] []).schedule
          ++ [(0, [n1, n2])] ∧
        (2 ≤ (Generator.strictPool (Generator.initState 0 1 ["A", "B"] []) 0).length →
          n1 ∈ Generator.strictPool (Generator.initState 0 1 ["A", "B"] []) 0 ∧
          n2 ∈ Generator.strictPool (Generator.initState 0 1 ["A", "B"] []) 0) ∧
        ((Generator.strictPool (Generator.initState 0 1 ["A", "B"] []) 0).length < 2 →
          2 ≤ (Generator.relaxedPool (Generator.initState 0 1 ["A", "B"] []) 0).length →
          n1 ∈ Generator.relaxedPool (Generator.initState 0 1 ["A", "B"] []) 0 ∧
          n2 ∈ Generator.relaxedPool (Generator.initState 0 1 ["A", "B"] []) 0)) ∧
      ∃ stI kI, Generator.initialPhase idRnd (Generator.initState 0 1 ["A", "B"] [])
        = some (stI, kI)) :=
  ⟨permOK_idRnd, by decide, by decide,
    C5_relaxation_ladder idRnd permOK_idRnd (Generator.initState 0 1 ["A", "B"] [])
      0 0 (by decide) (by decide)⟩

/-! ## Claim C1: coverage through the rebalancer -/

theorem setSlot_keys (sched : List (Int × List Name)) (d : Int) (v : List Name) :
    (Generator.setSlot sched d v).map Prod.fst = sched.map Prod.fst := by
  induction sched with
  | nil => rfl
  | cons pr t ih =>
    have hstep : Generator.setSlot (pr :: t) d v
        = (if pr.1 = d then (pr.1, v) else pr) :: Generator.setSlot t d v := rfl
    rw [hstep, List.map_cons, List.map_cons, ih]
    split <;> rfl

theorem mem_setSlot (sched : List (Int × List Name)) (d : Int) (v : List Name)
    (pr : Int × List Name) (h : pr ∈ Generator.setSlot sched d v) :
    pr ∈ sched ∨ (pr = (d, v) ∧ ∃ w, (d, w) ∈ sched) := by
  obtain ⟨q, hq, hfq⟩ := List.mem_map.mp h
  by_cases hqd : q.1 = d
  · right
    rw [if_pos hqd] at hfq
    exact ⟨by rw [← hfq, hqd], q.2, by rw [← hqd]; exact hq⟩
  · left
    rw [if_neg hqd] at hfq
    exact hfq ▸ hq

theorem lookup_eq_of_mem (sched : List (Int × List Name))
    (hnd : (sched.map Prod.fst).Nodup) (pr : Int × List Name) (h : pr ∈ sched) :
    List.lookup pr.1 sched = some pr.2 := by
  induction sched with
  | nil => cases h
  | cons q t ih =>
    rw [List.map_cons, List.nodup_cons] at hnd
    rcases List.mem_cons.mp h with h1 | h1
    · subst h1
      simp [List.lookup]
    · have hne : (pr.1 == q.1) = false := by
        rw [beq_eq_false_iff_ne]
        intro he
        exact hnd.1 (he ▸ List.mem_map_of_mem Prod.fst h1)
      rw [List.lookup, hne]
      exact ih hnd.2 h1

theorem set_pair_ok (pair : List Name) (i : Nat) (repl : Name) (names : List Name)
    (hl : pair.length = 2) (hnd : pair.Nodup) (hsub : ∀ n ∈ pair, n ∈ names)
    (hrepl : repl ∈ names) (hnot : repl ∉ pair) :
    (pair.set i repl).length = 2 ∧ (pair.set i repl).Nodup ∧
      ∀ n ∈ pair.set i repl, n ∈ names := by
  rcases pair with _ | ⟨a, t⟩
  · simp at hl
  rcases t with _ | ⟨b, t2⟩
  · simp at hl
  rcases t2 with _ | ⟨c, t3⟩
  · have hab : a ≠ b := by
      intro h
      subst h
      exact (List.nodup_cons.mp hnd).1 (List.mem_cons_self _ _)
    have hna : repl ≠ a := fun h => hnot (h ▸ List.mem_cons_self _ _)
    have hnb : repl ≠ b :=
      fun h => hnot (h ▸ List.mem_cons_of_mem _ (List.mem_cons_self _ _))
    match i with
    | 0 =>
      have hset : List.set [a, b] 0 repl = [repl, b] := rfl
      rw [hset]
      refine ⟨rfl, by simp [hnb], ?_⟩
      intro n hn
      rcases List.mem_cons.mp hn with h1 | h1
      · exact h1 ▸ hrepl
      · simp only [List.mem_singleton] at h1
        exact h1 ▸ hsub b (List.mem_cons_of_mem _ (List.mem_cons_self _ _))
    | 1 =>
      have hset : List.set [a, b] 1 repl = [a, repl] := rfl
      rw [hset]
      refine ⟨rfl, by simp [hna.symm], ?_⟩
      intro n hn
      rcases List.mem_cons.mp hn with h1 | h1
      · exact h1 ▸ hsub a (List.mem_cons_self _ _)
      · simp only [List.mem_singleton] at h1
        exact h1 ▸ hrepl
    | (m + 2) =>
      have hset : List.set [a, b] (m + 2) repl = [a, b] := rfl
      rw [hset]
      exact ⟨rfl, hnd, hsub⟩
  · simp at hl

theorem rebalanceSlot_inv (r : Rnd) (hr : PickOK r) (keys : List Int)
    (names : List Name) (hknd : keys.Nodup) (st : Generator.State) (k : Nat)
    (d : Int) (i : Nat) (hinv : SchedInv keys names st) :
    SchedInv keys names (Generator.rebalanceSlot r st k d i).1 := by
  obtain ⟨hkeys, hnames, hpairs⟩ := hinv
  rw [Generator.rebalanceSlot]
  simp only
  split
  · rcases hc : Generator.candidatesFor st d (Generator.is_special_day st d)
        ((List.lookup d st.schedule).getD []) with _ | ⟨c, cs⟩
    · exact ⟨hkeys, hnames, hpairs⟩
    · dsimp only
      have hrepl : r.pick k (c :: cs) ∈ Generator.candidatesFor st d
          (Generator.is_special_day st d) ((List.lookup d st.schedule).getD []) := by
        rw [hc]
        exact hr k (c :: cs) (by simp)
      obtain ⟨hreplN, hpred⟩ := List.mem_filter.mp hrepl
      have hnotpair : r.pick k (c :: cs) ∉ (List.lookup d st.schedule).getD [] := by
        simp only [Bool.and_eq_true] at hpred
        have := hpred.1.1.1
        simpa using this
      refine ⟨?_, hnames, ?_⟩
      · show (Generator.setSlot st.schedule d _).map Prod.fst = keys
        rw [setSlot_keys, hkeys]
      · intro pr hpr
        have hpr2 : pr ∈ Generator.setSlot st.schedule d
            (((List.lookup d st.schedule).getD []).set i (r.pick k (c :: cs))) := hpr
        rcases mem_setSlot _ _ _ _ hpr2 with h | ⟨hpreq, w, hw⟩
        · exact hpairs pr h
        · have hlk : List.lookup d st.schedule = some w := by
            have := lookup_eq_of_mem st.schedule (by rw [hkeys]; exact hknd) (d, w) hw
            simpa using this
          obtain ⟨hwl, hwnd, hwsub⟩ := hpairs (d, w) hw
          have hpair : (List.lookup d st.schedule).getD [] = w := by rw [hlk]; rfl
          rw [hpreq]
          rw [hpair] at hnotpair
          have := set_pair_ok w i (r.pick k (c :: cs)) names hwl hwnd hwsub
            (hnames ▸ hreplN) hnotpair
          simpa [hpair] using this
  · exact ⟨hkeys, hnames, hpairs⟩

theorem rebalanceDay_inv (r : Rnd) (hr : PickOK r) (keys : List Int)
    (names : List Name) (hknd : keys.Nodup) (st : Generator.State) (k : Nat)
    (d : Int) (hinv : SchedInv keys names st) :
    SchedInv keys names (Generator.rebalanceDay r st k d).1 := by
  rw [Generator.rebalanceDay]
  exact rebalanceSlot_inv r hr keys names hknd _ _ _ _
    (rebalanceSlot_inv r hr keys names hknd st k d 0 hinv)

theorem rebalancePass_inv (r : Rnd) (hr : PickOK r) (keys : List Int)
    (names : List Name) (hknd : keys.Nodup) (ds : List Int) :
    ∀ (st : Generator.State) (k : Nat), SchedInv keys names st →
      SchedInv keys names (Generator.rebalancePass r st k ds).1 := by
  induction ds with
  | nil => intro st k hinv; exact hinv
  | cons d rest ih =>
    intro st k hinv
    rw [Generator.rebalancePass]
    exact ih _ _ (rebalanceDay_inv r hr keys names hknd st k d hinv)

theorem equalizeLoop_inv (r : Rnd) (hr : PickOK r) (keys : List Int)
    (names : List Name) (hknd : keys.Nodup) :
    ∀ (fuel : Nat) (st : Generator.State) (k iters : Nat), SchedInv keys names st →
      SchedInv keys names (Generator.equalizeLoop r fuel st k iters).1 := by
  intro fuel
  induction fuel with
  | zero => intro st k iters hinv; exact hinv
  | succ n ih =>
    intro st k iters hinv
    rw [Generator.equalizeLoop]
    split
    · exact hinv
    · exact ih _ _ _ (rebalancePass_inv r hr keys names hknd _ st k hinv)

theorem update_inv (keys : List Int) (names : List Name) (st : Generator.State)
    (hinv : SchedInv keys names st) :
    SchedInv keys names (Generator.update_assignments st) := by
  obtain ⟨hkeys, hnames, hpairs⟩ := hinv
  refine ⟨?_, ?_, ?_⟩
  · rw [update_schedule_eq, hkeys]
  · rw [update_names_eq, hnames]
  · rw [update_schedule_eq]
    exact hpairs

theorem datesList_nodup (s e : Int) : (datesList s e).Nodup := by
  rw [datesList]
  refine (List.nodup_range _).map ?_
  intro a b h
  simp only at h
  omega

/-! ## Standby variant: sorting and greedy balance -/

theorem insertKey_perm (key : Name → Int × Int) (x : Name) (l : List Name) :
    (insertKey key x l).Perm (x :: l) := by
  induction l with
  | nil => exact List.Perm.refl _
  | cons y ys ih =>
    rw [insertKey]
    split
    · exact (ih.cons y).trans (List.Perm.swap x y ys)
    · exact List.Perm.refl _

theorem sortByKey_perm (key : Name → Int × Int) (l : List Name) :
    (sortByKey key l).Perm l := by
  induction l with
  | nil => exact List.Perm.refl _
  | cons x xs ih =>
    rw [sortByKey]
    exact (insertKey_perm key x _).trans (ih.cons x)

theorem keyLt_asymm (key : Name → Int × Int) (a b : Name)
    (h : keyLt key a b = true) : keyLt key b a = false := by
  simp only [keyLt, decide_eq_true_eq] at h
  simp only [keyLt, decide_eq_false_iff_not]
  omega

theorem keyLt_false_trans (key : Name → Int × Int) (x y z : Name)
    (h1 : keyLt key y x = false) (h2 : keyLt key z y = false) :
    keyLt key z x = false := by
  simp only [keyLt, decide_eq_false_iff_not] at h1 h2 ⊢
  omega

theorem insertKey_pairwise (key : Name → Int × Int) (x : Name) (l : List Name)
    (hl : l.Pairwise (fun a b => keyLt key b a = false)) :
    (insertKey key x l).Pairwise (fun a b => keyLt key b a = false) := by
  induction l with
  | nil => simp [insertKey]
  | cons y ys ih =>
    rw [insertKey]
    obtain ⟨hy, hys⟩ := List.pairwise_cons.mp hl
    split
    · rename_i hcond
      refine List.pairwise_cons.mpr ⟨?_, ih hys⟩
      intro z hz
      have hz2 : z ∈ x :: ys := (insertKey_perm key x ys).subset hz
      rcases List.mem_cons.mp hz2 with h1 | h1
      · subst h1
        exact keyLt_asymm key y z hcond
      · exact hy z h1
    · rename_i hcond
      simp only [Bool.not_eq_true] at hcond
      refine List.pairwise_cons.mpr ⟨?_, hl⟩
      intro z hz
      rcases List.mem_cons.mp hz with h1 | h1
      · subst h1
        exact hcond
      · exact keyLt_false_trans key x y z hcond (hy z h1)

theorem sortByKey_pairwise (key : Name → Int × Int) (l : List Name) :
    (sortByKey key l).Pairwise (fun a b => keyLt key b a = false) := by
  induction l with
  | nil => simp [sortByKey]
  | cons x xs ih =>
    rw [sortByKey]
    exact insertKey_pairwise key x _ ih

theorem sortByKey_head_min (key : Name → Int × Int) (l : List Name) (x : Name)
    (rest : List Name) (h : sortByKey key l = x :: rest) :
    ∀ y ∈ rest, (key x).1 ≤ (key y).1 := by
  have hp := sortByKey_pairwise key l
  rw [h] at hp
  obtain ⟨hx, -⟩ := List.pairwise_cons.mp hp
  intro y hy
  have := hx y hy
  simp only [keyLt, decide_eq_false_iff_not] at this
  omega

theorem standby_noteAssign_total (st : Standby.State) (d : Int) (n m : Name) :
    ((Standby.noteAssign st d n).assignments m).total
      = (st.assignments m).total + (if m = n then 1 else 0) := by
  by_cases h : m = n
  · subst h
    simp [Standby.noteAssign]
  · simp [Standby.noteAssign, h]

theorem standby_assignDay_eq (r : Rnd) (st : Standby.State) (k : Nat) (d : Int) :
    Standby.assignDay r st k d =
      match Standby.pickNext r st (k + 1) (r.perm k st.names) with
      | none => none
      | some (n1, avail1, k1) =>
        match Standby.pickNext r (Standby.noteAssign st d n1) k1 avail1 with
        | none => none
        | some (n2, _, k2) =>
          some ({ Standby.noteAssign (Standby.noteAssign st d n1) d n2 with
            schedule := st.schedule ++ [(d, [n1, n2])] }, k2) := rfl

theorem standby_assignDay_spec (r : Rnd) (hr : PermOK r) (st : Standby.State)
    (k : Nat) (d : Int) (h2 : 2 ≤ st.names.length) (hnd : st.names.Nodup) :
    ∃ n1 n2 st2 k2,
      Standby.assignDay r st k d = some (st2, k2) ∧
      n1 ∈ st.names ∧ n2 ∈ st.names ∧ n1 ≠ n2 ∧
      st2.schedule = st.schedule ++ [(d, [n1, n2])] ∧
      st2.names = st.names ∧ st2.start_date = st.start_date ∧
      st2.end_date = st.end_date ∧ st2.holidays = st.holidays ∧
      (∀ y ∈ st.names, (st.assignments n1).total ≤ (st.assignments y).total) ∧
      (∀ y ∈ st.names, y ≠ n1 →
        (st.assignments n2).total ≤ (st.assignments y).total) ∧
      (∀ m, (st2.assignments m).total = (st.assignments m).total
          + (if m = n1 then 1 else 0) + (if m = n2 then 1 else 0)) := by
  rw [standby_assignDay_eq]
  rcases havail : r.perm (α := Name) k st.names with _ | ⟨a, arest⟩
  · have hp := hr k st.names
    rw [havail] at hp
    have hnil : st.names = [] := hp.symm.eq_nil
    rw [hnil] at h2
    simp at h2
  · have hp := hr k st.names
    rw [havail] at hp
    have hpick1 : Standby.pickNext r st (k + 1) (a :: arest)
        = match sortByKey (Standby.statKey st) (a :: arest) with
          | [] => none
          | x :: rest => some (x, rest, k + 1) := rfl
    rw [hpick1]
    rcases hsort : sortByKey (Standby.statKey st) (a :: arest) with _ | ⟨x, rest⟩
    · have hsp := sortByKey_perm (Standby.statKey st) (a :: arest)
      rw [hsort] at hsp
      have := hsp.symm.eq_nil
      simp at this
    · have hsp := sortByKey_perm (Standby.statKey st) (a :: arest)
      rw [hsort] at hsp
      have hxnames : (x :: rest).Perm st.names := hsp.trans hp
      have hndx : (x :: rest).Nodup := hxnames.nodup_iff.mpr hnd
      have hminx : ∀ y ∈ st.names, (st.assignments x).total ≤ (st.assignments y).total := by
        intro y hy
        have hy2 : y ∈ x :: rest := hxnames.mem_iff.mpr hy
        rcases List.mem_cons.mp hy2 with h1 | h1
        · rw [h1]
        · exact sortByKey_head_min (Standby.statKey st) (a :: arest) x rest hsort y h1
      rcases hrest : rest with _ | ⟨b, brest⟩
      · exfalso
        rw [hrest] at hxnames
        have := hxnames.length_eq
        simp only [List.length_cons, List.length_nil] at this
        omega
      · rw [hrest] at hxnames hndx
        dsimp only
        have hpick2 : Standby.pickNext r (Standby.noteAssign st d x) (k + 1) (b :: brest)
            = match sortByKey (Standby.statKey (Standby.noteAssign st d x)) (b :: brest) with
              | [] => none
              | z :: rest2 => some (z, rest2, k + 1) := rfl
        rw [hpick2]
        rcases hsort2 : sortByKey (Standby.statKey (Standby.noteAssign st d x))
            (b :: brest) with _ | ⟨z, rest2⟩
        · have hsp2 := sortByKey_perm (Standby.statKey (Standby.noteAssign st d x)) (b :: brest)
          rw [hsort2] at hsp2
          have := hsp2.symm.eq_nil
          simp at this
        · have hsp2 := sortByKey_perm (Standby.statKey (Standby.noteAssign st d x)) (b :: brest)
          rw [hsort2] at hsp2
          have hzb : z ∈ b :: brest := hsp2.subset (List.mem_cons_self _ _)
          have hzrest : z ∈ x :: b :: brest := List.mem_cons_of_mem _ hzb
          have hznames : z ∈ st.names := hxnames.subset hzrest
          have hxnotrest : x ∉ b :: brest := (List.nodup_cons.mp hndx).1
          have hzx : z ≠ x := fun h => hxnotrest (h ▸ hzb)
          have hminz : ∀ y ∈ st.names, y ≠ x →
              (st.assignments z).total ≤ (st.assignments y).total := by
            intro y hy hyx
            have hy2 : y ∈ x :: b :: brest := hxnames.mem_iff.mpr hy
            rcases List.mem_cons.mp hy2 with h1 | h1
            · exact absurd h1 hyx
            · have hy3 : y ∈ z :: rest2 := hsp2.mem_iff.mpr h1
              have hkey : (Standby.statKey (Standby.noteAssign st d x) z).1
                  ≤ (Standby.statKey (Standby.noteAssign st d x) y).1 := by
                rcases List.mem_cons.mp hy3 with h2 | h2
                · rw [h2]
                · exact sortByKey_head_min _ (b :: brest) z rest2 hsort2 y h2
              have hkz : (Standby.statKey (Standby.noteAssign st d x) z).1
                  = (st.assignments z).total := by
                simp [Standby.statKey, standby_noteAssign_total, hzx]
              have hky : (Standby.statKey (Standby.noteAssign st d x) y).1
                  = (st.assignments y).total := by
                simp [Standby.statKey, standby_noteAssign_total, hyx]
              rw [hkz, hky] at hkey
              exact hkey
          refine ⟨x, z, _, _, rfl, hxnames.subset (List.mem_cons_self _ _), hznames,
            fun h => hzx h.symm, rfl, rfl, rfl, rfl, rfl, hminx, hminz, ?_⟩
          intro m
          show ((Standby.noteAssign (Standby.noteAssign st d x) d z).assignments m).total
              = (st.assignments m).total + (if m = x then 1 else 0)
                + (if m = z then 1 else 0)
          rw [standby_noteAssign_total, standby_noteAssign_total]

theorem spread_step (names : List Name) (t : Name → Int) (n1 n2 : Name)
    (h1 : n1 ∈ names) (h2 : n2 ∈ names) (hne : n1 ≠ n2)
    (hmin1 : ∀ y ∈ names, t n1 ≤ t y)
    (hmin2 : ∀ y ∈ names, y ≠ n1 → t n2 ≤ t y)
    (hsp : ∀ a ∈ names, ∀ b ∈ names, t a ≤ t b + 1) :
    ∀ a ∈ names, ∀ b ∈ names,
      (t a + (if a = n1 then 1 else 0) + (if a = n2 then 1 else 0))
        ≤ (t b + (if b = n1 then 1 else 0) + (if b = n2 then 1 else 0)) + 1 := by
  intro a ha b hb
  have q1 := hmin1 n2 h2
  have q2 := hmin1 b hb
  have q3 := hsp n2 h2 n1 h1
  have q4 := hsp a ha n1 h1
  have q5 := hsp a ha n2 h2
  have q6 := hsp a ha b hb
  split_ifs <;> subst_vars <;>
    first
      | omega
      | (exact absurd rfl hne)
      | (have q7 := hmin2 b hb ‹¬ b = n1›; omega)

theorem sum_ite_count (names : List Name) (p : Name) (hnd : names.Nodup)
    (hp : p ∈ names) :
    (names.map (fun m => if m = p then (1 : Int) else 0)).sum = 1 := by
  induction names with
  | nil => cases hp
  | cons x xs ih =>
    rw [List.map_cons, List.sum_cons]
    obtain ⟨hx, hxs⟩ := List.nodup_cons.mp hnd
    rcases List.mem_cons.mp hp with h | h
    · rw [if_pos h.symm]
      have hz : (xs.map (fun m => if m = p then (1 : Int) else 0)).sum = 0 := by
        apply List.sum_eq_zero
        intro y hy
        obtain ⟨m, hm, hmy⟩ := List.mem_map.mp hy
        rw [← hmy, if_neg]
        intro hmp
        exact hx (by rw [← hmp.trans h]; exact hm)
      rw [hz]
      norm_num
    · have hxp : ¬ x = p := by
        intro hh
        exact hx (hh ▸ h)
      rw [if_neg hxp, ih hxs h]
      norm_num

theorem sum_bump (names : List Name) (hnd : names.Nodup) (t t2 : Name → Int)
    (n1 n2 : Name) (h1 : n1 ∈ names) (h2 : n2 ∈ names)
    (ht : ∀ m, t2 m = t m + (if m = n1 then 1 else 0) + (if m = n2 then 1 else 0)) :
    (names.map t2).sum = (names.map t).sum + 2 := by
  have e1 : names.map t2 = names.map (fun m =>
      (t m + (if m = n1 then (1 : Int) else 0)) + (if m = n2 then (1 : Int) else 0)) := by
    apply List.map_congr_left
    intro m _
    rw [ht m]
  rw [e1, List.sum_map_add, List.sum_map_add, sum_ite_count names n1 hnd h1,
    sum_ite_count names n2 hnd h2]
  ring

theorem standby_loop_spec (r : Rnd) (hr : PermOK r) (ds : List Int) :
    ∀ (st : Standby.State) (k : Nat), 2 ≤ st.names.length → st.names.Nodup →
      spreadLe1 st →
      ∃ st2 k2, Standby.assignLoop r st k ds = some (st2, k2) ∧
        st2.names = st.names ∧ spreadLe1 st2 ∧
        totalSum st2 = totalSum st + 2 * ds.length ∧
        ∃ ext, st2.schedule = st.schedule ++ ext ∧ ext.map Prod.fst = ds ∧
          ∀ pr ∈ ext, pr.2.length = 2 ∧ pr.2.Nodup ∧ ∀ n ∈ pr.2, n ∈ st.names := by
  induction ds with
  | nil =>
    intro st k h2 hnd hsp
    exact ⟨st, k, rfl, rfl, hsp, by simp, [], by simp, rfl, by simp⟩
  | cons d rest ih =>
    intro st k h2 hnd hsp
    obtain ⟨n1, n2, st1, k1, heq, hn1, hn2, hne, hsched, hnames, hstart, hend, hhol,
        hmin1, hmin2, htot⟩ := standby_assignDay_spec r hr st k d h2 hnd
    have hsp1 : spreadLe1 st1 := by
      intro a ha b hb
      rw [hnames] at ha hb
      rw [htot a, htot b]
      exact spread_step st.names (fun n => (st.assignments n).total) n1 n2 hn1 hn2
        hne hmin1 hmin2 hsp a ha b hb
    have hsum1 : totalSum st1 = totalSum st + 2 := by
      rw [totalSum, totalSum, hnames]
      exact sum_bump st.names hnd _ _ n1 n2 hn1 hn2 htot
    obtain ⟨st2, k2, heq2, hnames2, hsp2, hsum2, ext, hext, hmap, hprs⟩ :=
      ih st1 k1 (by rw [hnames]; exact h2) (by rw [hnames]; exact hnd) hsp1
    refine ⟨st2, k2, ?_, by rw [hnames2, hnames], hsp2, ?_, (d, [n1, n2]) :: ext,
      ?_, ?_, ?_⟩
    · have hstep : Standby.assignLoop r st k (d :: rest)
          = Standby.assignLoop r st1 k1 rest := by
        simp only [Standby.assignLoop, heq]
      rw [hstep]
      exact heq2
    · rw [hsum2, hsum1]
      simp only [List.length_cons]
      push_cast
      ring
    · rw [hext, hsched]
      simp
    · simp [hmap]
    · intro pr hpr
      rcases List.mem_cons.mp hpr with h | h
      · subst h
        refine ⟨rfl, by simp [hne], ?_⟩
        intro n hn
        rcases List.mem_cons.mp hn with h1 | h1
        · exact h1 ▸ hn1
        · simp only [List.mem_singleton] at h1
          exact h1 ▸ hn2
      · obtain ⟨hl, hnd1, hsub⟩ := hprs pr h
        exact ⟨hl, hnd1, fun n hn => by rw [← hnames]; exact hsub n hn⟩

/-- Claim C1: for every roster of at least 2 distinct identifiers and every
non-empty inclusive date range, after schedule generation — and, in the
rebalancing variant, after every completed phase (after the initial assignment
phase and after rebalancing) — the schedule has exactly one entry for each day
in `[start_date, end_date]`, that entry contains exactly 2 people, and the two
people on any one day are distinct roster members.  Both source variants are
covered. -/
theorem C1_coverage (r : Rnd) (hp : PermOK r) (hq : PickOK r) (s e : Int)
    (names : List Name) (hol : List Int) (hse : s ≤ e) (h2 : 2 ≤ names.length)
    (hnd : names.Nodup) :
    (∃ st1 k1, Generator.initialPhase r (Generator.initState s e names hol)
        = some (st1, k1) ∧ Coverage s e names st1.schedule) ∧
    (∃ st2 it k2, Generator.generate_schedule r (Generator.initState s e names hol)
        = some (st2, it, k2) ∧ Coverage s e names st2.schedule) ∧
    (∃ st3 k3, Standby.generate_schedule r (Standby.initState s e names hol)
        = some (st3, k3) ∧ Coverage s e names st3.schedule) := by
  obtain ⟨stL, kL, heqL, hnamesL, hstartL, hendL, hholL, ext, hext, hmap, hprs⟩ :=
    assignLoop_spec r hp (datesList s e) (Generator.initState s e names hol) 0 h2 hnd
  have hphase : Generator.initialPhase r (Generator.initState s e names hol)
      = some (Generator.update_assignments stL, kL) := by
    have hd : datesList (Generator.initState s e names hol).start_date
        (Generator.initState s e names hol).end_date = datesList s e := rfl
    rw [Generator.initialPhase, hd, heqL]
  have hschedL : stL.schedule = ext := by
    rw [hext]
    rfl
  have hinvU : SchedInv (datesList s e) names
      (Generator.update_assignments stL) := by
    refine ⟨?_, ?_, ?_⟩
    · rw [update_schedule_eq, hschedL, hmap]
    · rw [update_names_eq, hnamesL]
      rfl
    · rw [update_schedule_eq, hschedL]
      exact hprs
  have covOf : ∀ st : Generator.State, SchedInv (datesList s e) names st →
      Coverage s e names st.schedule := by
    intro st hinv
    obtain ⟨hkeys, hnm, hpairs⟩ := hinv
    exact ⟨by rw [hkeys], hpairs⟩
  refine ⟨⟨Generator.update_assignments stL, kL, hphase, covOf _ hinvU⟩, ?_, ?_⟩
  · have hgen : Generator.generate_schedule r (Generator.initState s e names hol)
        = some ((Generator.equalize_shifts r (Generator.update_assignments stL)
            kL 2000).1,
          (Generator.equalize_shifts r (Generator.update_assignments stL) kL 2000).2.1,
          (Generator.equalize_shifts r (Generator.update_assignments stL) kL 2000).2.2)
        := by
      rw [Generator.generate_schedule, hphase]
    have hinvF : SchedInv (datesList s e) names
        (Generator.equalize_shifts r (Generator.update_assignments stL) kL 2000).1 := by
      have hloop := equalizeLoop_inv r hq (datesList s e) names (datesList_nodup s e)
        2000 (Generator.update_assignments stL) kL 0 hinvU
      have : (Generator.equalize_shifts r (Generator.update_assignments stL)
          kL 2000).1 = Generator.update_assignments
            (Generator.equalizeLoop r 2000 (Generator.update_assignments stL) kL 0).1
          := rfl
      rw [this]
      exact update_inv _ _ _ hloop
    exact ⟨_, _, _, hgen, covOf _ hinvF⟩
  · have hsp0 : spreadLe1 (Standby.initState s e names hol) := by
      intro a _ b _
      simp [Standby.initState]
    obtain ⟨stS, kS, heqS, hnamesS, hspS, hsumS, extS, hextS, hmapS, hprsS⟩ :=
      standby_loop_spec r hp (r.perm 0 (datesList s e))
        (Standby.initState s e names hol) 1 h2 hnd hsp0
    have hgenS : Standby.generate_schedule r (Standby.initState s e names hol)
        = some (stS, kS) := by
      have hd : datesList (Standby.initState s e names hol).start_date
          (Standby.initState s e names hol).end_date = datesList s e := rfl
      rw [Standby.generate_schedule, hd]
      exact heqS
    have hschedS : stS.schedule = extS := by
      rw [hextS]
      rfl
    refine ⟨stS, kS, hgenS, ?_, ?_⟩
    · rw [hschedS, hmapS]
      exact hp 0 (datesList s e)
    · rw [hschedS]
      exact hprsS

/-- Claim C1 witness: coverage at a concrete roster, range and oracle. -/
theorem C1_coverage_witness :
    PermOK idRnd ∧ PickOK idRnd ∧ (0 : Int) ≤ 1 ∧
    2 ≤ (["A", "B", "C"] : List Name).length ∧ (["A", "B", "C"] : List Name).Nodup ∧
    ((∃ st1 k1, Generator.initialPhase idRnd (Generator.initState 0 1 ["A", "B", "C"] [])
        = some (st1, k1) ∧ Coverage 0 1 ["A", "B", "C"] st1.schedule) ∧
      (∃ st2 it k2, Generator.generate_schedule idRnd
          (Generator.initState 0 1 ["A", "B", "C"] [])
        = some (st2, it, k2) ∧ Coverage 0 1 ["A", "B", "C"] st2.schedule) ∧
      (∃ st3 k3, Standby.generate_schedule idRnd
          (Standby.initState 0 1 ["A", "B", "C"] [])
        = some (st3, k3) ∧ Coverage 0 1 ["A", "B", "C"] st3.schedule)) :=
  ⟨permOK_idRnd, pickOK_idRnd, by decide, by decide, by decide,
    C1_coverage idRnd permOK_idRnd pickOK_idRnd 0 1 ["A", "B", "C"] []
      (by decide) (by decide) (by decide)⟩

/-! ## Claim C7: the 7 people / 7 days scenario -/

theorem sum_bounds (l : List Name) (t : Name → Int) (lo hi : Int)
    (h : ∀ x ∈ l, lo ≤ t x ∧ t x ≤ hi) :
    (l.length : Int) * lo ≤ (l.map t).sum ∧ (l.map t).sum ≤ (l.length : Int) * hi := by
  induction l with
  | nil => simp
  | cons x xs ih =>
    rw [List.map_cons, List.sum_cons, List.length_cons]
    obtain ⟨ih1, ih2⟩ := ih (fun y hy => h y (List.mem_cons_of_mem _ hy))
    obtain ⟨hx1, hx2⟩ := h x (List.mem_cons_self _ _)
    push_cast
    constructor <;> nlinarith [ih1, ih2, hx1, hx2]

theorem all_two (names : List Name) (h7 : names.length = 7) (hnd : names.Nodup)
    (t : Name → Int) (hsum : (names.map t).sum = 14)
    (hsp : ∀ a ∈ names, ∀ b ∈ names, t a ≤ t b + 1) :
    ∀ n ∈ names, t n = 2 := by
  intro n hn
  have hperm : names.Perm (n :: names.erase n) := List.perm_cons_erase hn
  have hsum2 : t n + ((names.erase n).map t).sum = 14 := by
    have := (hperm.map t).sum_eq
    rw [List.map_cons, List.sum_cons] at this
    rw [← this, hsum]
  have hbounds := sum_bounds (names.erase n) t (t n - 1) (t n + 1) ?_
  · have hl6 : ((names.erase n).length : Int) = 6 := by
      rw [List.length_erase_of_mem hn, h7]
      norm_num
    rw [hl6] at hbounds
    obtain ⟨hb1, hb2⟩ := hbounds
    omega
  · intro y hy
    have hyn : y ∈ names := List.mem_of_mem_erase hy
    exact ⟨by have := hsp n hn y hyn; omega, by have := hsp y hyn n hn; omega⟩

/-- Claim C7 (amended): for the 7-day range (days 0-6, i.e. 2024-01-01 through
2024-01-07) with a roster of exactly 7 distinct people, the `Standby.py`
variant — whose initial assignment sorts candidates by current load — gives
every person `total = 2` exactly after generation, for every shuffle outcome.
In the `generator.py` variant the initial assignment phase does not sort by
load, and an adverse shuffle leaves totals as unequal as 3/3/2/2/2/2/0 (see the
counterexample), so the spread after the initial phase need not be 0 there. -/
theorem C7_seven_by_seven (r : Rnd) (hr : PermOK r) (names : List Name)
    (hol : List Int) (h7 : names.length = 7) (hnd : names.Nodup) :
    ∃ st k, Standby.generate_schedule r (Standby.initState 0 6 names hol)
      = some (st, k) ∧ ∀ n ∈ names, (st.assignments n).total = 2 := by
  have h2 : 2 ≤ names.length := by omega
  have hsp0 : spreadLe1 (Standby.initState 0 6 names hol) := by
    intro a _ b _
    simp [Standby.initState]
  obtain ⟨stS, kS, heqS, hnamesS, hspS, hsumS, -⟩ :=
    standby_loop_spec r hr (r.perm 0 (datesList 0 6))
      (Standby.initState 0 6 names hol) 1 h2 hnd hsp0
  have hgenS : Standby.generate_schedule r (Standby.initState 0 6 names hol)
      = some (stS, kS) := by
    have hd : datesList (Standby.initState 0 6 names hol).start_date
        (Standby.initState 0 6 names hol).end_date = datesList 0 6 := rfl
    rw [Standby.generate_schedule, hd]
    exact heqS
  refine ⟨stS, kS, hgenS, ?_⟩
  have hlen : ((r.perm (α := Int) 0 (datesList 0 6)).length : Int) = 7 := by
    rw [(hr 0 (datesList 0 6)).length_eq]
    rfl
  have hsum0 : totalSum (Standby.initState 0 6 names hol) = 0 := by
    rw [totalSum]
    apply List.sum_eq_zero
    intro y hy
    obtain ⟨m, -, hm⟩ := List.mem_map.mp hy
    rw [← hm]
    rfl
  have hsum14 : totalSum stS = 14 := by
    rw [hsumS, hsum0, hlen]
    norm_num
  have hall := all_two stS.names (by rw [hnamesS]; exact h7)
    (by rw [hnamesS]; exact hnd) (fun n => (stS.assignments n).total)
    (by rw [← totalSum]; exact hsum14) hspS
  intro n hn
  exact hall n (by rw [hnamesS]; exact hn)

/-- Claim C7 witness: the amended statement at a concrete roster and oracle. -/
theorem C7_seven_by_seven_witness :
    PermOK idRnd ∧ names7.length = 7 ∧ names7.Nodup ∧
    ∃ st k, Standby.generate_schedule idRnd (Standby.initState 0 6 names7 [])
      = some (st, k) ∧ ∀ n ∈ names7, (st.assignments n).total = 2 :=
  ⟨permOK_idRnd, by decide, by decide,
    C7_seven_by_seven idRnd permOK_idRnd names7 [] (by decide) (by decide)⟩

/-- Claim C7 counterexample: in the `generator.py` variant with the same 7-day
range and 7 distinct people, the oracle `rotC7` (all shuffles are rotations) is
a valid randomness outcome under which the initial assignment phase alone
leaves totals `[3, 3, 2, 2, 2, 2, 0]` — person A has `total = 3 ≠ 2`, so the
spread after initial assignment is 3, not 0. -/
theorem C7_cex :
    PermOK rotC7 ∧
    (Generator.initialPhase rotC7 (Generator.initState 0 6 names7 [])).map
        (fun t => names7.map (fun n => (t.1.assignments n).total))
      = some [3, 3, 2, 2, 2, 2, 0] ∧
    ¬ ((3 : Int) = 2) :=
  ⟨permOK_rotC7, by decide, by decide⟩
